import Mathlib

/-!
# A formal model of the eywa hybrid ingestion-and-retrieval core

This file embeds the score-fusion, hybrid-search, ingest-dedup, chunking and
store-facade logic of the eywa knowledge-base engine (Rust) as Lean
definitions, and proves the behavioural properties claimed by its
specification.  Floating-point scores are modelled as exact rationals;
store backends (LanceDB, SQLite, tantivy) appear as explicit state or as
oracle parameters.
-/

namespace Eywa

/-- Chunk metadata returned by vector search (`types.rs`, `ChunkMeta`).
The `f32` score is modelled as an exact rational. -/
structure ChunkMeta where
  id : String
  document_id : String
  source_id : String
  title : Option String := none
  file_path : Option String := none
  line_start : Option Nat := none
  line_end : Option Nat := none
  score : ℚ
deriving DecidableEq

/-- BM25 search result (`bm25.rs`, `BM25Result`): a chunk id with its BM25
score. -/
structure BM25Result where
  chunk_id : String
  score : ℚ
deriving DecidableEq

/-- `Eywa::normalize_scores` (`lib.rs`): min-max normalisation of
`(id, score)` pairs.  The `f32::INFINITY` / `f32::NEG_INFINITY` fold seeds of
the source are replaced by the first score of the (non-empty) list, which
yields the same minimum and maximum. -/
def normalize_scores (scores : List (String × ℚ)) : List (String × ℚ) :=
  match scores with
  | [] => []
  | p :: _ =>
    let mn := scores.foldl (fun m q => min m q.2) p.2
    let mx := scores.foldl (fun m q => max m q.2) p.2
    let range := mx - mn
    if range = 0 then
      scores.map (fun q => (q.1, 1))
    else
      scores.map (fun q => (q.1, (q.2 - mn) / range))

/-- `*combined.entry(id).or_default() += s` on the association-list model of
the `HashMap<String, f32>` used by `convex_fusion`. -/
def accumulate : List (String × ℚ) → String → ℚ → List (String × ℚ)
  | [], k, s => [(k, s)]
  | q :: m, k, s => if q.1 = k then (q.1, q.2 + s) :: m else q :: accumulate m k s

/-- The descending comparison used by
`results.sort_by(|a, b| b.1.partial_cmp(&a.1))` in `convex_fusion`. -/
def scoreGE (a b : String × ℚ) : Prop := b.2 ≤ a.2

instance : DecidableRel scoreGE := fun a b => inferInstanceAs (Decidable (b.2 ≤ a.2))

instance : IsTotal (String × ℚ) scoreGE := ⟨fun a b => le_total b.2 a.2⟩

instance : IsTrans (String × ℚ) scoreGE := ⟨fun _ _ _ h1 h2 => le_trans h2 h1⟩

/-- Sort the fused `(id, score)` pairs by score descending (a comparison sort,
as `Vec::sort_by`). -/
def sortByScoreDesc (l : List (String × ℚ)) : List (String × ℚ) :=
  l.insertionSort scoreGE

/-- `Eywa::convex_fusion` (`lib.rs`): normalise the two candidate lists and
combine them with the given convex weights, then sort by fused score
descending. -/
def convex_fusion (vector_results : List ChunkMeta) (bm25_results : List BM25Result)
    (vec_weight bm25_weight : ℚ) : List (String × ℚ) :=
  let vec_scores := vector_results.map (fun r => (r.id, r.score))
  let bm25_scores := bm25_results.map (fun r => (r.chunk_id, r.score))
  let vec_normalized := normalize_scores vec_scores
  let bm25_normalized := normalize_scores bm25_scores
  let combined :=
    bm25_normalized.foldl (fun m p => accumulate m p.1 (bm25_weight * p.2))
      (vec_normalized.foldl (fun m p => accumulate m p.1 (vec_weight * p.2)) [])
  sortByScoreDesc combined

/-- Look an id up in an `(id, score)` list (first match, as a `HashMap`
lookup on the association-list model). -/
def lookupScore (l : List (String × ℚ)) (id : String) : Option ℚ :=
  (l.find? (fun p => p.1 == id)).map (·.2)

/-- The score an id contributes: its entry if present, `0` otherwise
("a missing component contributes zero"). -/
def getScore (l : List (String × ℚ)) (id : String) : ℚ :=
  (lookupScore l id).getD 0

-- ### Helper lemmas on the min/max folds

lemma foldl_min_le_init (l : List (String × ℚ)) (a : ℚ) :
    l.foldl (fun m q => min m q.2) a ≤ a := by
  induction l generalizing a with
  | nil => exact le_refl a
  | cons q t ih => exact le_trans (ih (min a q.2)) (min_le_left _ _)

lemma foldl_min_le_mem (l : List (String × ℚ)) (a : ℚ) {q : String × ℚ} (hq : q ∈ l) :
    l.foldl (fun m p => min m p.2) a ≤ q.2 := by
  induction l generalizing a with
  | nil => cases hq
  | cons r t ih =>
    rcases List.mem_cons.mp hq with h | h
    · subst h
      exact le_trans (foldl_min_le_init t (min a q.2)) (min_le_right _ _)
    · exact ih (min a r.2) h

lemma foldl_min_eq_init_or_mem (l : List (String × ℚ)) (a : ℚ) :
    l.foldl (fun m q => min m q.2) a = a ∨
      ∃ q ∈ l, l.foldl (fun m q => min m q.2) a = q.2 := by
  induction l generalizing a with
  | nil => exact Or.inl rfl
  | cons r t ih =>
    rcases ih (min a r.2) with h | ⟨q, hq, h⟩
    · rcases le_total a r.2 with hle | hle
      · left; simpa [List.foldl_cons, min_eq_left hle] using h
      · right
        exact ⟨r, List.mem_cons_self _ _, by simpa [List.foldl_cons, min_eq_right hle] using h⟩
    · exact Or.inr ⟨q, List.mem_cons_of_mem _ hq, h⟩

lemma le_foldl_max_init (l : List (String × ℚ)) (a : ℚ) :
    a ≤ l.foldl (fun m q => max m q.2) a := by
  induction l generalizing a with
  | nil => exact le_refl a
  | cons q t ih => exact le_trans (le_max_left _ _) (ih (max a q.2))

lemma le_foldl_max_mem (l : List (String × ℚ)) (a : ℚ) {q : String × ℚ} (hq : q ∈ l) :
    q.2 ≤ l.foldl (fun m p => max m p.2) a := by
  induction l generalizing a with
  | nil => cases hq
  | cons r t ih =>
    rcases List.mem_cons.mp hq with h | h
    · subst h
      exact le_trans (le_max_right _ _) (le_foldl_max_init t (max a q.2))
    · exact ih (max a r.2) h

lemma foldl_max_eq_init_or_mem (l : List (String × ℚ)) (a : ℚ) :
    l.foldl (fun m q => max m q.2) a = a ∨
      ∃ q ∈ l, l.foldl (fun m q => max m q.2) a = q.2 := by
  induction l generalizing a with
  | nil => exact Or.inl rfl
  | cons r t ih =>
    rcases ih (max a r.2) with h | ⟨q, hq, h⟩
    · rcases le_total a r.2 with hle | hle
      · right
        exact ⟨r, List.mem_cons_self _ _, by simpa [List.foldl_cons, max_eq_right hle] using h⟩
      · left; simpa [List.foldl_cons, max_eq_left hle] using h
    · exact Or.inr ⟨q, List.mem_cons_of_mem _ hq, h⟩

lemma foldl_min_eq_of_bounds (l : List (String × ℚ)) (p : String × ℚ) (hp : p ∈ l)
    (smin : ℚ) (hmem : smin ∈ l.map Prod.snd) (hle : ∀ s ∈ l.map Prod.snd, smin ≤ s) :
    l.foldl (fun m q => min m q.2) p.2 = smin := by
  rcases List.mem_map.mp hmem with ⟨q, hq, hq2⟩
  refine le_antisymm ?_ ?_
  · calc l.foldl (fun m q => min m q.2) p.2 ≤ q.2 := foldl_min_le_mem l p.2 hq
    _ = smin := hq2
  · rcases foldl_min_eq_init_or_mem l p.2 with h | ⟨r, hr, h⟩
    · rw [h]; exact hle p.2 (List.mem_map.mpr ⟨p, hp, rfl⟩)
    · rw [h]; exact hle r.2 (List.mem_map.mpr ⟨r, hr, rfl⟩)

lemma foldl_max_eq_of_bounds (l : List (String × ℚ)) (p : String × ℚ) (hp : p ∈ l)
    (smax : ℚ) (hmem : smax ∈ l.map Prod.snd) (hle : ∀ s ∈ l.map Prod.snd, s ≤ smax) :
    l.foldl (fun m q => max m q.2) p.2 = smax := by
  rcases List.mem_map.mp hmem with ⟨q, hq, hq2⟩
  refine le_antisymm ?_ ?_
  · rcases foldl_max_eq_init_or_mem l p.2 with h | ⟨r, hr, h⟩
    · rw [h]; exact hle p.2 (List.mem_map.mpr ⟨p, hp, rfl⟩)
    · rw [h]; exact hle r.2 (List.mem_map.mpr ⟨r, hr, rfl⟩)
  · calc smax = q.2 := hq2.symm
    _ ≤ l.foldl (fun m q => max m q.2) p.2 := le_foldl_max_mem l p.2 hq

-- ### Helper lemmas on the association-list accumulator

lemma accumulate_cons_eq (q : String × ℚ) (m : List (String × ℚ)) (k : String) (s : ℚ)
    (h : q.1 = k) : accumulate (q :: m) k s = (q.1, q.2 + s) :: m := by
  simp [accumulate, h]

lemma accumulate_cons_ne (q : String × ℚ) (m : List (String × ℚ)) (k : String) (s : ℚ)
    (h : q.1 ≠ k) : accumulate (q :: m) k s = q :: accumulate m k s := by
  simp [accumulate, h]

lemma lookupScore_nil (id : String) : lookupScore [] id = none := rfl

lemma lookupScore_cons_eq (q : String × ℚ) (m : List (String × ℚ)) (id : String)
    (h : q.1 = id) : lookupScore (q :: m) id = some q.2 := by
  simp [lookupScore, List.find?, beq_iff_eq.mpr h]

lemma lookupScore_cons_ne (q : String × ℚ) (m : List (String × ℚ)) (id : String)
    (h : q.1 ≠ id) : lookupScore (q :: m) id = lookupScore m id := by
  simp [lookupScore, List.find?, beq_eq_false_iff_ne.mpr h]

lemma lookupScore_accumulate_self (m : List (String × ℚ)) (k : String) (s : ℚ) :
    lookupScore (accumulate m k s) k = some ((lookupScore m k).getD 0 + s) := by
  induction m with
  | nil =>
    show lookupScore [(k, s)] k = _
    rw [lookupScore_cons_eq _ _ _ rfl, lookupScore_nil]
    norm_num
  | cons q m ih =>
    by_cases h : q.1 = k
    · rw [accumulate_cons_eq _ _ _ _ h, lookupScore_cons_eq q m k h,
        lookupScore_cons_eq (q.1, q.2 + s) m k h]
      norm_num
    · rw [accumulate_cons_ne _ _ _ _ h, lookupScore_cons_ne q m k h,
        lookupScore_cons_ne q _ k h, ih]

lemma lookupScore_accumulate_ne (m : List (String × ℚ)) (k : String) (s : ℚ)
    (id : String) (h : id ≠ k) :
    lookupScore (accumulate m k s) id = lookupScore m id := by
  induction m with
  | nil =>
    show lookupScore [(k, s)] id = _
    rw [lookupScore_cons_ne (k, s) [] id (fun e => h e.symm)]
  | cons q m ih =>
    by_cases hq : q.1 = k
    · have hne : q.1 ≠ id := by rw [hq]; exact fun e => h e.symm
      rw [accumulate_cons_eq _ _ _ _ hq, lookupScore_cons_ne q m id hne,
        lookupScore_cons_ne (q.1, q.2 + s) m id hne]
    · by_cases hid : q.1 = id
      · rw [accumulate_cons_ne _ _ _ _ hq, lookupScore_cons_eq q _ id hid,
          lookupScore_cons_eq q m id hid]
      · rw [accumulate_cons_ne _ _ _ _ hq, lookupScore_cons_ne q _ id hid,
          lookupScore_cons_ne q m id hid, ih]

lemma lookupScore_foldl_not_mem (w : ℚ) (l : List (String × ℚ)) (m : List (String × ℚ))
    (id : String) (h : ∀ q ∈ l, q.1 ≠ id) :
    lookupScore (l.foldl (fun m p => accumulate m p.1 (w * p.2)) m) id = lookupScore m id := by
  induction l generalizing m with
  | nil => rfl
  | cons p t ih =>
    rw [List.foldl_cons, ih _ (fun q hq => h q (List.mem_cons_of_mem _ hq)),
      lookupScore_accumulate_ne _ _ _ _ (fun e => h p (List.mem_cons_self _ _) e.symm)]

lemma lookupScore_foldl (w : ℚ) (l : List (String × ℚ)) (m : List (String × ℚ))
    (id : String) (hnd : (l.map Prod.fst).Nodup) :
    lookupScore (l.foldl (fun m p => accumulate m p.1 (w * p.2)) m) id =
      match l.find? (fun p => p.1 == id) with
      | some p => some ((lookupScore m id).getD 0 + w * p.2)
      | none => lookupScore m id := by
  induction l generalizing m with
  | nil => rfl
  | cons p t ih =>
    rw [List.map_cons, List.nodup_cons] at hnd
    by_cases h : p.1 = id
    · have hnotmem : ∀ q ∈ t, q.1 ≠ id := by
        intro q hq he
        exact hnd.1 (by rw [h, ← he]; exact List.mem_map.mpr ⟨q, hq, rfl⟩)
      rw [List.foldl_cons, lookupScore_foldl_not_mem w t _ id hnotmem, ← h,
        lookupScore_accumulate_self]
      simp [List.find?, beq_iff_eq.mpr h]
    · have hbeq : (p.1 == id) = false := beq_eq_false_iff_ne.mpr h
      rw [List.foldl_cons, ih _ hnd.2]
      simp only [List.find?, hbeq]
      rw [lookupScore_accumulate_ne _ _ _ _ (fun e => h e.symm)]

lemma mem_keys_accumulate (m : List (String × ℚ)) (k : String) (s : ℚ) (id : String) :
    id ∈ (accumulate m k s).map Prod.fst ↔ id ∈ m.map Prod.fst ∨ id = k := by
  induction m with
  | nil =>
    show id ∈ ([(k, s)].map Prod.fst) ↔ _
    simp
  | cons q m ih =>
    by_cases h : q.1 = k
    · rw [accumulate_cons_eq _ _ _ _ h]
      simp only [List.map_cons, List.mem_cons]
      constructor
      · rintro (he | hm)
        · exact Or.inl (Or.inl he)
        · exact Or.inl (Or.inr hm)
      · rintro ((he | hm) | he)
        · exact Or.inl he
        · exact Or.inr hm
        · exact Or.inl (by rw [he, h])
    · rw [accumulate_cons_ne _ _ _ _ h]
      simp only [List.map_cons, List.mem_cons, ih]
      tauto

lemma nodup_keys_accumulate (m : List (String × ℚ)) (k : String) (s : ℚ)
    (h : (m.map Prod.fst).Nodup) : ((accumulate m k s).map Prod.fst).Nodup := by
  induction m with
  | nil =>
    show (([(k, s)] : List (String × ℚ)).map Prod.fst).Nodup
    simp
  | cons q m ih =>
    rw [List.map_cons, List.nodup_cons] at h
    by_cases hq : q.1 = k
    · rw [accumulate_cons_eq _ _ _ _ hq]
      rw [List.map_cons, List.nodup_cons]
      exact ⟨h.1, h.2⟩
    · rw [accumulate_cons_ne _ _ _ _ hq]
      rw [List.map_cons, List.nodup_cons]
      refine ⟨?_, ih h.2⟩
      rw [mem_keys_accumulate]
      rintro (hm | he)
      · exact h.1 hm
      · exact hq he

lemma nodup_keys_foldl (w : ℚ) (l : List (String × ℚ)) (m : List (String × ℚ))
    (h : (m.map Prod.fst).Nodup) :
    ((l.foldl (fun m p => accumulate m p.1 (w * p.2)) m).map Prod.fst).Nodup := by
  induction l generalizing m with
  | nil => exact h
  | cons p t ih => exact ih _ (nodup_keys_accumulate _ _ _ h)

lemma lookupScore_eq_some_iff (l : List (String × ℚ)) (id : String) (s : ℚ)
    (hnd : (l.map Prod.fst).Nodup) :
    lookupScore l id = some s ↔ (id, s) ∈ l := by
  induction l with
  | nil => simp [lookupScore]
  | cons q t ih =>
    rw [List.map_cons, List.nodup_cons] at hnd
    by_cases h : q.1 = id
    · rw [lookupScore_cons_eq _ _ _ h, List.mem_cons]
      constructor
      · intro he
        left
        cases he
        rw [← h]
      · rintro (he | hm)
        · rw [← he]
        · exact absurd (List.mem_map.mpr ⟨(id, s), hm, rfl⟩) (h ▸ hnd.1)
    · rw [lookupScore_cons_ne _ _ _ h, ih hnd.2, List.mem_cons]
      constructor
      · exact Or.inr
      · rintro (he | hm)
        · exact absurd (congrArg Prod.fst he).symm h
        · exact hm

lemma lookupScore_eq_none_iff (l : List (String × ℚ)) (id : String) :
    lookupScore l id = none ↔ id ∉ l.map Prod.fst := by
  induction l with
  | nil => simp [lookupScore]
  | cons q t ih =>
    by_cases h : q.1 = id
    · rw [lookupScore_cons_eq _ _ _ h]
      simp [h]
    · rw [lookupScore_cons_ne _ _ _ h, ih]
      simp only [List.map_cons, List.mem_cons]
      constructor
      · intro hn
        rintro (he | hm)
        · exact h he.symm
        · exact hn hm
      · intro hn hm
        exact hn (Or.inr hm)

lemma lookupScore_perm (l₁ l₂ : List (String × ℚ)) (hp : l₁.Perm l₂)
    (hnd : (l₁.map Prod.fst).Nodup) (id : String) :
    lookupScore l₁ id = lookupScore l₂ id := by
  have hnd₂ : (l₂.map Prod.fst).Nodup := hnd.perm (hp.map Prod.fst)
  cases h : lookupScore l₁ id with
  | none =>
    rw [lookupScore_eq_none_iff] at h
    have : id ∉ l₂.map Prod.fst := fun hm => h ((hp.map Prod.fst).mem_iff.mpr hm)
    rw [← lookupScore_eq_none_iff] at this
    exact this.symm
  | some s =>
    rw [lookupScore_eq_some_iff _ _ _ hnd] at h
    exact ((lookupScore_eq_some_iff _ _ _ hnd₂).mpr (hp.mem_iff.mp h)).symm

-- ### Facts about `normalize_scores` needed for fusion

lemma normalize_scores_map_fst (l : List (String × ℚ)) :
    (normalize_scores l).map Prod.fst = l.map Prod.fst := by
  match l with
  | [] => rfl
  | p :: t =>
    simp only [normalize_scores]
    split <;> simp

lemma find?_eq_lookupScore (l : List (String × ℚ)) (id : String) :
    l.find? (fun p => p.1 == id) = (lookupScore l id).map (fun s => (id, s)) := by
  induction l with
  | nil => rfl
  | cons q t ih =>
    by_cases h : q.1 = id
    · simp [lookupScore, List.find?, beq_iff_eq.mpr h, ← h]
    · have hbeq : (q.1 == id) = false := beq_eq_false_iff_ne.mpr h
      simp only [List.find?, hbeq, lookupScore] at ih ⊢
      exact ih

-- ### The fused-score characterisation shared by the fusion claims

/-- The fused score the specification predicts for an id: `w_vec` times its
normalised vector score plus `w_bm25` times its normalised BM25 score, a
missing component contributing zero. -/
def specFusedScore (vr : List ChunkMeta) (br : List BM25Result)
    (vec_weight bm25_weight : ℚ) (id : String) : ℚ :=
  vec_weight * getScore (normalize_scores (vr.map (fun r => (r.id, r.score)))) id
    + bm25_weight * getScore (normalize_scores (br.map (fun r => (r.chunk_id, r.score)))) id

lemma convex_fusion_lookup (vr : List ChunkMeta) (br : List BM25Result)
    (w₁ w₂ : ℚ) (hv : (vr.map ChunkMeta.id).Nodup) (hb : (br.map BM25Result.chunk_id).Nodup)
    (id : String) :
    lookupScore (convex_fusion vr br w₁ w₂) id =
      if id ∈ vr.map ChunkMeta.id ∨ id ∈ br.map BM25Result.chunk_id then
        some (specFusedScore vr br w₁ w₂ id)
      else none := by
  have hvkeys : (vr.map (fun r => (r.id, r.score))).map Prod.fst = vr.map ChunkMeta.id := by
    simp
  have hbkeys : (br.map (fun r => (r.chunk_id, r.score))).map Prod.fst
      = br.map BM25Result.chunk_id := by simp
  have hvnd : ((normalize_scores (vr.map (fun r => (r.id, r.score)))).map Prod.fst).Nodup := by
    rw [normalize_scores_map_fst, hvkeys]; exact hv
  have hbnd : ((normalize_scores (br.map (fun r => (r.chunk_id, r.score)))).map Prod.fst).Nodup := by
    rw [normalize_scores_map_fst, hbkeys]; exact hb
  have hperm : (convex_fusion vr br w₁ w₂).Perm
      ((normalize_scores (br.map (fun r => (r.chunk_id, r.score)))).foldl
        (fun m p => accumulate m p.1 (w₂ * p.2))
        ((normalize_scores (vr.map (fun r => (r.id, r.score)))).foldl
          (fun m p => accumulate m p.1 (w₁ * p.2)) [])) := by
    unfold convex_fusion sortByScoreDesc
    exact List.perm_insertionSort _ _
  have hndinner :
      (((normalize_scores (br.map (fun r => (r.chunk_id, r.score)))).foldl
        (fun m p => accumulate m p.1 (w₂ * p.2))
        ((normalize_scores (vr.map (fun r => (r.id, r.score)))).foldl
          (fun m p => accumulate m p.1 (w₁ * p.2)) [])).map Prod.fst).Nodup :=
    nodup_keys_foldl _ _ _ (nodup_keys_foldl _ _ _ (by simp))
  rw [lookupScore_perm _ _ hperm ((hperm.map Prod.fst).nodup_iff.mpr hndinner) id]
  rw [lookupScore_foldl _ _ _ _ hbnd, lookupScore_foldl _ _ _ _ hvnd]
  rw [find?_eq_lookupScore, find?_eq_lookupScore]
  have hvmem : id ∈ vr.map ChunkMeta.id ↔
      lookupScore (normalize_scores (vr.map (fun r => (r.id, r.score)))) id ≠ none := by
    rw [Ne, lookupScore_eq_none_iff, normalize_scores_map_fst, hvkeys, not_not]
  have hbmem : id ∈ br.map BM25Result.chunk_id ↔
      lookupScore (normalize_scores (br.map (fun r => (r.chunk_id, r.score)))) id ≠ none := by
    rw [Ne, lookupScore_eq_none_iff, normalize_scores_map_fst, hbkeys, not_not]
  cases hvl : lookupScore (normalize_scores (vr.map (fun r => (r.id, r.score)))) id with
  | none =>
    cases hbl : lookupScore (normalize_scores (br.map (fun r => (r.chunk_id, r.score)))) id with
    | none =>
      rw [if_neg]
      · simp [hvl, hbl, lookupScore_nil]
      · rintro (hm | hm)
        · exact (hvmem.mp hm) hvl
        · exact (hbmem.mp hm) hbl
    | some sb =>
      rw [if_pos (Or.inr (hbmem.mpr (by rw [hbl]; exact fun h => by cases h)))]
      simp only [hvl, hbl, Option.map_some, Option.map_none, Option.map_some', Option.map_none', Option.getD_some, Option.getD_none,
        specFusedScore, getScore, lookupScore_nil, Option.some.injEq]
      ring
  | some sv =>
    cases hbl : lookupScore (normalize_scores (br.map (fun r => (r.chunk_id, r.score)))) id with
    | none =>
      rw [if_pos (Or.inl (hvmem.mpr (by rw [hvl]; exact fun h => by cases h)))]
      simp only [hvl, hbl, Option.map_some, Option.map_none, Option.map_some', Option.map_none', Option.getD_some, Option.getD_none,
        specFusedScore, getScore, lookupScore_nil, Option.some.injEq]
      ring
    | some sb =>
      rw [if_pos (Or.inl (hvmem.mpr (by rw [hvl]; exact fun h => by cases h)))]
      simp only [hvl, hbl, Option.map_some, Option.map_none, Option.map_some', Option.map_none', Option.getD_some, Option.getD_none,
        specFusedScore, getScore, lookupScore_nil, Option.some.injEq]
      ring

lemma convex_fusion_sorted (vr : List ChunkMeta) (br : List BM25Result) (w₁ w₂ : ℚ) :
    List.Sorted scoreGE (convex_fusion vr br w₁ w₂) := by
  unfold convex_fusion sortByScoreDesc
  exact List.sorted_insertionSort scoreGE _

/-- **C1.** `convex_fusion` with weights `0.8` / `0.2`: every chunk id that
appears in either candidate list receives the fused score
`0.8 · vec_norm + 0.2 · bm25_norm` (a component missing from one list
contributes zero), ids in neither list are absent, and the returned list is
sorted by fused score descending. -/
theorem convex_fusion_spec (vr : List ChunkMeta) (br : List BM25Result)
    (hv : (vr.map ChunkMeta.id).Nodup) (hb : (br.map BM25Result.chunk_id).Nodup) :
    List.Sorted scoreGE (convex_fusion vr br (8/10) (2/10))
    ∧ ∀ id : String,
        lookupScore (convex_fusion vr br (8/10) (2/10)) id =
          if id ∈ vr.map ChunkMeta.id ∨ id ∈ br.map BM25Result.chunk_id then
            some ((8/10) * getScore (normalize_scores (vr.map (fun r => (r.id, r.score)))) id
                + (2/10) * getScore (normalize_scores (br.map (fun r => (r.chunk_id, r.score)))) id)
          else none :=
  ⟨convex_fusion_sorted vr br _ _, fun id => convex_fusion_lookup vr br _ _ hv hb id⟩

/-- **C1 witness**: the fused-score characterisation instantiated on a
one-element vector list and a disjoint one-element BM25 list. -/
theorem convex_fusion_spec_witness :
    List.Sorted scoreGE
      (convex_fusion [{ id := "v", document_id := "d", source_id := "s", score := 1 }]
        [{ chunk_id := "b", score := 2 }] (8/10) (2/10))
    ∧ ∀ id : String,
        lookupScore
            (convex_fusion [{ id := "v", document_id := "d", source_id := "s", score := 1 }]
              [{ chunk_id := "b", score := 2 }] (8/10) (2/10)) id =
          if id ∈ ([{ id := "v", document_id := "d", source_id := "s", score := 1 }] :
                List ChunkMeta).map ChunkMeta.id
              ∨ id ∈ ([{ chunk_id := "b", score := 2 }] : List BM25Result).map
                  BM25Result.chunk_id then
            some ((8/10) * getScore (normalize_scores
                  (([{ id := "v", document_id := "d", source_id := "s", score := 1 }] :
                    List ChunkMeta).map (fun r => (r.id, r.score)))) id
                + (2/10) * getScore (normalize_scores
                  (([{ chunk_id := "b", score := 2 }] : List BM25Result).map
                    (fun r => (r.chunk_id, r.score)))) id)
          else none :=
  convex_fusion_spec _ _ (by simp) (by simp)

/-- **C3.** Monotonicity of fusion: if id `A`'s normalised vector and BM25
components (a missing component counting as zero) each dominate id `B`'s,
then `A`'s fused score is at least `B`'s. -/
theorem convex_fusion_monotone (vr : List ChunkMeta) (br : List BM25Result)
    (hv : (vr.map ChunkMeta.id).Nodup) (hb : (br.map BM25Result.chunk_id).Nodup)
    (A B : String)
    (hA : A ∈ vr.map ChunkMeta.id ∨ A ∈ br.map BM25Result.chunk_id)
    (hB : B ∈ vr.map ChunkMeta.id ∨ B ∈ br.map BM25Result.chunk_id)
    (hvec : getScore (normalize_scores (vr.map (fun r => (r.id, r.score)))) B
      ≤ getScore (normalize_scores (vr.map (fun r => (r.id, r.score)))) A)
    (hbm : getScore (normalize_scores (br.map (fun r => (r.chunk_id, r.score)))) B
      ≤ getScore (normalize_scores (br.map (fun r => (r.chunk_id, r.score)))) A) :
    ∃ sA sB, lookupScore (convex_fusion vr br (8/10) (2/10)) A = some sA
      ∧ lookupScore (convex_fusion vr br (8/10) (2/10)) B = some sB
      ∧ sB ≤ sA := by
  refine ⟨specFusedScore vr br (8/10) (2/10) A, specFusedScore vr br (8/10) (2/10) B, ?_, ?_, ?_⟩
  · rw [convex_fusion_lookup vr br _ _ hv hb A, if_pos hA]
  · rw [convex_fusion_lookup vr br _ _ hv hb B, if_pos hB]
  · unfold specFusedScore
    have h1 : (8/10 : ℚ) * getScore (normalize_scores (vr.map (fun r => (r.id, r.score)))) B
        ≤ (8/10 : ℚ) * getScore (normalize_scores (vr.map (fun r => (r.id, r.score)))) A :=
      mul_le_mul_of_nonneg_left hvec (by norm_num)
    have h2 : (2/10 : ℚ) * getScore (normalize_scores (br.map (fun r => (r.chunk_id, r.score)))) B
        ≤ (2/10 : ℚ) * getScore (normalize_scores (br.map (fun r => (r.chunk_id, r.score)))) A :=
      mul_le_mul_of_nonneg_left hbm (by norm_num)
    exact add_le_add h1 h2

/-- **C3 witness**: monotonicity applied to two concrete ids whose normalised
components dominate each other trivially. -/
theorem convex_fusion_monotone_witness :
    ∃ sA sB, lookupScore (convex_fusion
        [{ id := "v", document_id := "d", source_id := "s", score := 1 },
         { id := "u", document_id := "d", source_id := "s", score := 0 }]
        [] (8/10) (2/10)) "v" = some sA
      ∧ lookupScore (convex_fusion
        [{ id := "v", document_id := "d", source_id := "s", score := 1 },
         { id := "u", document_id := "d", source_id := "s", score := 0 }]
        [] (8/10) (2/10)) "u" = some sB
      ∧ sB ≤ sA := by
  refine convex_fusion_monotone _ _ (by simp) (by simp) "v" "u" (by simp) (by simp) ?_ ?_
  · show getScore (normalize_scores [("v", (1 : ℚ)), ("u", 0)]) "u"
      ≤ getScore (normalize_scores [("v", (1 : ℚ)), ("u", 0)]) "v"
    have hn : normalize_scores [("v", (1 : ℚ)), ("u", 0)] = [("v", 1), ("u", 0)] := by
      show (if _ then _ else _) = _
      norm_num [List.foldl]
    rw [getScore, getScore, hn, lookupScore_cons_ne ("v", 1) _ "u" (by decide),
      lookupScore_cons_eq ("u", 0) [] "u" rfl, lookupScore_cons_eq ("v", 1) _ "v" rfl]
    norm_num
  · exact le_refl (0 : ℚ)

/-- **C2.** Min-max normalisation: on a non-empty score list with minimum
`smin` and maximum `smax`, when `smax ≠ smin` every score `s` maps to
`(s − smin) / (smax − smin)`; when the range is zero (which covers one-item
and all-equal lists) every score maps to `1`; the empty list maps to the
empty list. -/
theorem normalize_scores_minmax (scores : List (String × ℚ)) (smin smax : ℚ)
    (hminmem : smin ∈ scores.map Prod.snd) (hminle : ∀ s ∈ scores.map Prod.snd, smin ≤ s)
    (hmaxmem : smax ∈ scores.map Prod.snd) (hmaxle : ∀ s ∈ scores.map Prod.snd, s ≤ smax) :
    normalize_scores [] = ([] : List (String × ℚ))
    ∧ (smax ≠ smin →
        normalize_scores scores =
          scores.map (fun q => (q.1, (q.2 - smin) / (smax - smin))))
    ∧ (smax = smin → normalize_scores scores = scores.map (fun q => (q.1, 1))) := by
  refine ⟨rfl, ?_, ?_⟩ <;>
  · intro h
    match scores, hminmem with
    | p :: t, hminmem =>
      have hmin : (p :: t).foldl (fun m q => min m q.2) p.2 = smin :=
        foldl_min_eq_of_bounds _ p (List.mem_cons_self _ _) smin hminmem hminle
      have hmax : (p :: t).foldl (fun m q => max m q.2) p.2 = smax :=
        foldl_max_eq_of_bounds _ p (List.mem_cons_self _ _) smax hmaxmem hmaxle
      simp only [normalize_scores, hmin, hmax]
      first
      | rw [if_neg (sub_ne_zero.mpr h)]
      | rw [if_pos (by rw [h, sub_self])]

/-- **C2 witness**: `normalize_scores` on `[("a", 2), ("b", 5)]` maps the
minimum to `0` and the maximum to `1`. -/
theorem normalize_scores_minmax_witness :
    normalize_scores [("a", (2 : ℚ)), ("b", 5)] = [("a", 0), ("b", 1)] := by
  have h := normalize_scores_minmax [("a", (2 : ℚ)), ("b", 5)] 2 5
    (by norm_num) (by norm_num) (by norm_num) (by norm_num)
  rw [h.2.1 (by norm_num)]
  norm_num

/-! ## The Vector Index (`db.rs`) -/

/-- A row of the LanceDB `chunks_v2` table (`db.rs`: the fields of
`ChunkRecord` plus the stored embedding vector, modelled over `ℚ`). -/
structure ChunkRow where
  id : String
  document_id : String
  source_id : String
  title : Option String := none
  file_path : Option String := none
  line_start : Option Nat := none
  line_end : Option Nat := none
  content_hash : String
  «section» : Option String := none
  subsection : Option String := none
  hierarchy : List String := []
  has_code : Bool := false
  vector : List ℚ := []
deriving DecidableEq

/-- A row of the `documents_v2` table (`db.rs`, `DocumentRecord`). -/
structure DocRow where
  id : String
  source_id : String
  title : String
  file_path : Option String := none
  created_at : String
  chunk_count : Nat := 0
  content_length : Nat := 0
deriving DecidableEq

/-- `VectorDB` (`db.rs`): the two optional LanceDB tables.  On a fresh data
directory `open_table` fails for both names, so both fields start as `none`
and stay `none` until the first write creates them. -/
structure VectorDB where
  chunks_table : Option (List ChunkRow) := none
  docs_table : Option (List DocRow) := none
deriving DecidableEq

/-- Aggregated per-source statistics (`types.rs`, `Source`). -/
structure Source where
  id : String
  name : String
  description : Option String := none
  doc_count : Nat
  chunk_count : Nat
  last_indexed : Option String := none
deriving DecidableEq

/-- `VectorDB::search_filtered` (`db.rs`).  The LanceDB ANN engine is
external; it is modelled by the oracle `rank`, which orders the (already
source-filtered) chunk rows by cosine distance to the query embedding.  The
returned score is `1 − distance`, and a missing chunks table yields the
empty result. -/
def VectorDB.search_filtered (rank : List ℚ → List ChunkRow → List (ChunkRow × ℚ))
    (db : VectorDB) (query_embedding : List ℚ) (limit : Nat)
    (source_id : Option String) : List ChunkMeta :=
  match db.chunks_table with
  | none => []
  | some rows =>
    let rows := match source_id with
      | some src => rows.filter (fun r => r.source_id = src)
      | none => rows
    ((rank query_embedding rows).take limit).map (fun p =>
      { id := p.1.id, document_id := p.1.document_id, source_id := p.1.source_id,
        title := p.1.title, file_path := p.1.file_path, line_start := p.1.line_start,
        line_end := p.1.line_end, score := 1 - p.2 })

/-- `VectorDB::search` (`db.rs`): `search_filtered` with no source filter. -/
def VectorDB.search (rank : List ℚ → List ChunkRow → List (ChunkRow × ℚ))
    (db : VectorDB) (query_embedding : List ℚ) (limit : Nat) : List ChunkMeta :=
  db.search_filtered rank query_embedding limit none

/-- `VectorDB::get_document` (`db.rs`): look a document record up by id;
a missing documents table yields `none`. -/
def VectorDB.get_document (db : VectorDB) (doc_id : String) : Option DocRow :=
  match db.docs_table with
  | none => none
  | some rows => rows.find? (fun r => r.id == doc_id)

/-- `VectorDB::chunk_exists` (`db.rs`): is any chunk row (of any source)
stored under this `content_hash`?  A missing chunks table yields `false`. -/
def VectorDB.chunk_exists (db : VectorDB) (content_hash : String) : Bool :=
  match db.chunks_table with
  | none => false
  | some rows => rows.any (fun r => r.content_hash == content_hash)

/-- Association-list update used to model the three `HashMap`s of
`list_sources`: apply `f` to an existing entry, or append `d` for a fresh
key. -/
def alUpdate {α : Type} (m : List (String × α)) (k : String) (f : α → α) (d : α) :
    List (String × α) :=
  match m with
  | [] => [(k, d)]
  | q :: m => if q.1 = k then (q.1, f q.2) :: m else q :: alUpdate m k f d

/-- Association-list lookup for the `list_sources` aggregation maps. -/
def alGet {α : Type} (m : List (String × α)) (k : String) : Option α :=
  (m.find? (fun q => q.1 == k)).map (·.2)

/-- One document row folded into the `list_sources` aggregation state
(`source_chunks`, `source_docs`, `source_latest`).  The `HashSet` of unique
document ids is modelled by insertion without duplicates. -/
def listSourcesStep
    (acc : List (String × Nat) × List (String × List String) × List (String × String))
    (r : DocRow) :
    List (String × Nat) × List (String × List String) × List (String × String) :=
  let source_chunks := alUpdate acc.1 r.source_id (· + r.chunk_count) r.chunk_count
  let source_docs := alUpdate acc.2.1 r.source_id
    (fun ds => if r.id ∈ ds then ds else ds ++ [r.id]) [r.id]
  let source_latest := alUpdate acc.2.2 r.source_id
    (fun existing => if existing < r.created_at then r.created_at else existing) r.created_at
  (source_chunks, source_docs, source_latest)

/-- `VectorDB::list_sources` (`db.rs`): aggregate chunk counts, unique
document ids and the latest `created_at` per `source_id` over all document
rows; a missing documents table yields the empty list. -/
def VectorDB.list_sources (db : VectorDB) : List Source :=
  match db.docs_table with
  | none => []
  | some rows =>
    let acc := rows.foldl listSourcesStep ([], [], [])
    acc.1.map (fun p =>
      { id := p.1, name := p.1, description := none,
        doc_count := ((alGet acc.2.1 p.1).getD []).length,
        chunk_count := p.2,
        last_indexed := alGet acc.2.2 p.1 })

/-- `VectorDB::get_document_ids_for_source` (`db.rs`). -/
def VectorDB.get_document_ids_for_source (db : VectorDB) (source_id : String) : List String :=
  match db.docs_table with
  | none => []
  | some rows => (rows.filter (fun r => r.source_id = source_id)).map (·.id)

/-- `VectorDB::delete_document` (`db.rs`): drop the document row with this
id and every chunk row referencing it (tables that do not exist are left
alone). -/
def VectorDB.delete_document (db : VectorDB) (doc_id : String) : VectorDB :=
  { docs_table := db.docs_table.map (fun rows => rows.filter (fun r => ¬ r.id = doc_id)),
    chunks_table := db.chunks_table.map
      (fun rows => rows.filter (fun r => ¬ r.document_id = doc_id)) }

/-- `VectorDB::delete_source` (`db.rs`): drop every document and chunk row
tagged with this source. -/
def VectorDB.delete_source (db : VectorDB) (source_id : String) : VectorDB :=
  { chunks_table := db.chunks_table.map
      (fun rows => rows.filter (fun r => ¬ r.source_id = source_id)),
    docs_table := db.docs_table.map
      (fun rows => rows.filter (fun r => ¬ r.source_id = source_id)) }

/-- **C10.** On a fresh Vector Index whose tables do not exist yet, every
read operation succeeds with an absent or empty result: `search` and
`search_filtered` return `[]`, `get_document` returns `none`,
`chunk_exists` returns `false`, and `list_sources` returns `[]`. -/
theorem vectordb_fresh_reads_empty (rank : List ℚ → List ChunkRow → List (ChunkRow × ℚ))
    (db : VectorDB) (hc : db.chunks_table = none) (hd : db.docs_table = none) :
    (∀ q limit src, db.search_filtered rank q limit src = [])
    ∧ (∀ q limit, db.search rank q limit = [])
    ∧ (∀ doc_id, db.get_document doc_id = none)
    ∧ (∀ hash, db.chunk_exists hash = false)
    ∧ db.list_sources = [] := by
  cases db
  cases hc
  cases hd
  exact ⟨fun _ _ _ => rfl, fun _ _ => rfl, fun _ => rfl, fun _ => rfl, rfl⟩

/-- **C10 witness**: the fresh-store read behaviour at concrete inputs. -/
theorem vectordb_fresh_reads_empty_witness :
    (VectorDB.mk none none).search_filtered (fun _ _ => []) [1] 50 (some "s") = []
    ∧ (VectorDB.mk none none).search (fun _ _ => []) [1] 50 = []
    ∧ (VectorDB.mk none none).get_document "doc" = none
    ∧ (VectorDB.mk none none).chunk_exists "hash" = false
    ∧ (VectorDB.mk none none).list_sources = [] := by
  have h := vectordb_fresh_reads_empty (fun _ _ => []) (VectorDB.mk none none) rfl rfl
  exact ⟨h.1 [1] 50 (some "s"), h.2.1 [1] 50, h.2.2.1 "doc", h.2.2.2.1 "hash", h.2.2.2.2⟩

/-! ## The three-store state and the batch writer (`pipeline/mod.rs`) -/

/-- Intermediate chunk structure during ingestion (`pipeline/mod.rs`,
`ChunkData`). -/
structure ChunkData where
  id : String
  document_id : String
  source_id : String
  title : Option String := none
  content : String
  file_path : Option String := none
  line_start : Nat := 1
  line_end : Nat := 1
  content_hash : String
  «section» : Option String := none
  subsection : Option String := none
  hierarchy : List String := []
  has_code : Bool := false
deriving DecidableEq

/-- Prepared document with its chunks (`pipeline/mod.rs`, `PreparedDoc`). -/
structure PreparedDoc where
  id : String
  content : String
  title : String
  file_path : Option String := none
  created_at : String := ""
  content_length : Nat := 0
  chunks : List ChunkData := []
deriving DecidableEq

/-- Batch of documents with embeddings (`pipeline/mod.rs`, `EmbeddedBatch`;
the `data_dir` path is filesystem plumbing and is dropped). -/
structure EmbeddedBatch where
  source_id : String
  documents : List PreparedDoc := []
  chunks : List ChunkData := []
  embeddings : List (List ℚ) := []
deriving DecidableEq

/-- API ingest response (`types.rs`, `IngestResponse`). -/
structure IngestResponse where
  source_id : String
  documents_created : Nat
  chunks_created : Nat
  chunks_skipped : Nat
  document_ids : List String
deriving DecidableEq

/-- Modelled from the spec: a tantivy posting of the Keyword Index
(`bm25.rs`, `ChunkInput`, absent from the source tree; spec §4.4:
`index(ChunkInput{chunk_id, source_id, document_id, content})`). -/
structure ChunkInput where
  chunk_id : String
  source_id : String
  document_id : String
  content : String
deriving DecidableEq

/-- Modelled from the spec: a document row of the Content Store
(`content.rs`, absent from the source tree; spec §4.2:
`insert_document(id, source_id, title, file_path?, content, created_at)`). -/
structure ContentDocRow where
  id : String
  source_id : String
  title : String
  file_path : Option String := none
  content : String
  created_at : String := ""
deriving DecidableEq

/-- Modelled from the spec: a chunk row of the Content Store (`content.rs`,
absent from the source tree; spec §4.2:
`insert_chunks([(chunk_id, document_id, content), …])`). -/
structure ContentChunkRow where
  id : String
  document_id : String
  content : String
deriving DecidableEq

/-- Modelled from the spec: the Content Store state (`content.rs`, absent
from the source tree): document bodies and per-chunk text. -/
structure ContentStore where
  documents : List ContentDocRow := []
  chunks : List ContentChunkRow := []
deriving DecidableEq

/-- The three stores owned by the coordinator (`lib.rs`, `Eywa`): Vector
Index, Keyword Index postings, Content Store. -/
structure Stores where
  db : VectorDB := {}
  keyword : List ChunkInput := []
  content : ContentStore := {}
deriving DecidableEq

/-- The chunk row written to the Vector Index for a surviving chunk and its
embedding (the `ChunkData → ChunkRecord` conversion of the batch writer). -/
def chunkRowOf (c : ChunkData) (e : List ℚ) : ChunkRow :=
  { id := c.id, document_id := c.document_id, source_id := c.source_id,
    title := c.title, file_path := c.file_path, line_start := some c.line_start,
    line_end := some c.line_end, content_hash := c.content_hash,
    «section» := c.«section», subsection := c.subsection, hierarchy := c.hierarchy,
    has_code := c.has_code, vector := e }

/-- Modelled from the spec: `BatchWriter::write_batch` (`pipeline/writer.rs`,
absent from the source tree; spec §4.5 flush step 3): write the batch in
order — (a) Content Store document rows then chunk rows, (b) Vector Index
document records then chunk records with embeddings, (c) Keyword Index
postings for each surviving chunk — and report
`WriteStats{documents_written, chunks_written, document_ids}` folded here
into the returned counts. -/
def write_batch (s : Stores) (source_id : String) (documents : List PreparedDoc)
    (chunks : List ChunkData) (embeddings : List (List ℚ)) :
    (Nat × Nat × List String) × Stores :=
  let contentDocs := s.content.documents ++ documents.map (fun d =>
    { id := d.id, source_id := source_id, title := d.title, file_path := d.file_path,
      content := d.content, created_at := d.created_at })
  let contentChunks := s.content.chunks ++ chunks.map (fun c =>
    { id := c.id, document_id := c.document_id, content := c.content })
  let docRows := documents.map (fun d =>
    { id := d.id, source_id := source_id, title := d.title, file_path := d.file_path,
      created_at := d.created_at, chunk_count := d.chunks.length,
      content_length := d.content_length : DocRow })
  let chunkRows := (chunks.zip embeddings).map (fun p => chunkRowOf p.1 p.2)
  let db : VectorDB :=
    { docs_table := some ((s.db.docs_table.getD []) ++ docRows),
      chunks_table := some ((s.db.chunks_table.getD []) ++ chunkRows) }
  let keyword := s.keyword ++ chunks.map (fun c =>
    { chunk_id := c.id, source_id := c.source_id, document_id := c.document_id,
      content := c.content })
  ((documents.length, chunks.length, documents.map (·.id)),
    { db := db, keyword := keyword, content := { documents := contentDocs, chunks := contentChunks } })

/-- `IngestPipeline::write_embedded_batch` (`pipeline/mod.rs`): for each
`(chunk, embedding)` pair of the batch, skip it (counting it in
`chunks_skipped`) when `chunk_exists(content_hash)` already holds in the
Vector Index, keep it otherwise; then write the surviving chunks and all
documents through the batch writer. -/
def write_embedded_batch (s : Stores) (batch : EmbeddedBatch) : IngestResponse × Stores :=
  let pairs := batch.chunks.zip batch.embeddings
  let kept := pairs.filter (fun p => ¬ s.db.chunk_exists p.1.content_hash)
  let chunks_skipped := pairs.countP (fun p => s.db.chunk_exists p.1.content_hash)
  let r := write_batch s batch.source_id batch.documents (kept.map (·.1)) (kept.map (·.2))
  ({ source_id := batch.source_id, documents_created := r.1.1,
     chunks_created := r.1.2.1, chunks_skipped := chunks_skipped,
     document_ids := r.1.2.2 }, r.2)

lemma zip_map_fst_snd {α β : Type} (l : List (α × β)) :
    (l.map (fun x => x.1)).zip (l.map (fun x => x.2)) = l := by
  induction l with
  | nil => rfl
  | cons p t ih => simp [ih]

lemma chunk_exists_getD (db : VectorDB) (h : String) :
    db.chunk_exists h = (db.chunks_table.getD []).any (fun r => r.content_hash == h) := by
  rcases db with ⟨ct, dt⟩
  cases ct <;> rfl

lemma any_filter_bool {α : Type} (l : List α) (q p : α → Bool) :
    (l.filter q).any p = l.any (fun a => q a && p a) := by
  induction l with
  | nil => rfl
  | cons a t ih => by_cases hq : q a <;> simp [List.filter_cons, hq, ih]

/-- **C5 counterexample.** Two chunks with the same `content_hash` inside a
single batch are *both* written against a fresh store: nothing is skipped,
`chunks_skipped = 0`, and the Vector Index ends up holding two rows with the
duplicated hash — the later insert of an equal-hash pair is not skipped when
both arrive in the same batch. -/
theorem write_embedded_batch_duplicate_in_batch :
    (write_embedded_batch {}
        { source_id := "s",
          chunks := [{ id := "c1", document_id := "d", source_id := "s",
                       content := "x", content_hash := "h" },
                     { id := "c2", document_id := "d", source_id := "s",
                       content := "x", content_hash := "h" }],
          embeddings := [[1], [1]] }).1.chunks_skipped = 0
    ∧ (write_embedded_batch {}
        { source_id := "s",
          chunks := [{ id := "c1", document_id := "d", source_id := "s",
                       content := "x", content_hash := "h" },
                     { id := "c2", document_id := "d", source_id := "s",
                       content := "x", content_hash := "h" }],
          embeddings := [[1], [1]] }).1.chunks_created = 2
    ∧ ((write_embedded_batch {}
        { source_id := "s",
          chunks := [{ id := "c1", document_id := "d", source_id := "s",
                       content := "x", content_hash := "h" },
                     { id := "c2", document_id := "d", source_id := "s",
                       content := "x", content_hash := "h" }],
          embeddings := [[1], [1]] }).2.db.chunks_table.getD []).countP
      (fun r => r.content_hash == "h") = 2 := by
  refine ⟨rfl, rfl, ?_⟩
  decide

/-- **C5 (amended).** When writing a batch, a `(chunk, embedding)` pair is
skipped — written to none of the three stores — exactly when its
`content_hash` is already present in the Vector Index *before* the batch
write (a global check with no source filter); all other pairs are written to
all three stores, skipped pairs are counted in `chunks_skipped`, and after
the write a hash exists in the Vector Index iff it existed before or a kept
chunk carried it — so a duplicate arriving in a *later* batch is skipped,
while duplicates inside one batch are all written. -/
theorem write_embedded_batch_spec (s : Stores) (batch : EmbeddedBatch) :
    (write_embedded_batch s batch).1.chunks_skipped
        = (batch.chunks.zip batch.embeddings).countP
            (fun p => s.db.chunk_exists p.1.content_hash)
    ∧ ((write_embedded_batch s batch).2.db.chunks_table.getD [])
        = (s.db.chunks_table.getD [])
          ++ (((batch.chunks.zip batch.embeddings).filter
                (fun p => ¬ s.db.chunk_exists p.1.content_hash)).map
              (fun p => chunkRowOf p.1 p.2))
    ∧ (write_embedded_batch s batch).2.keyword
        = s.keyword
          ++ (((batch.chunks.zip batch.embeddings).filter
                (fun p => ¬ s.db.chunk_exists p.1.content_hash)).map
              (fun p => { chunk_id := p.1.id, source_id := p.1.source_id,
                          document_id := p.1.document_id, content := p.1.content }))
    ∧ (write_embedded_batch s batch).2.content.chunks
        = s.content.chunks
          ++ (((batch.chunks.zip batch.embeddings).filter
                (fun p => ¬ s.db.chunk_exists p.1.content_hash)).map
              (fun p => { id := p.1.id, document_id := p.1.document_id,
                          content := p.1.content }))
    ∧ ∀ h : String,
        (write_embedded_batch s batch).2.db.chunk_exists h
          = (s.db.chunk_exists h
              || ((batch.chunks.zip batch.embeddings).filter
                    (fun p => ¬ s.db.chunk_exists p.1.content_hash)).any
                  (fun p => p.1.content_hash == h)) := by
  refine ⟨rfl, ?_, ?_, ?_, ?_⟩
  · simp [write_embedded_batch, write_batch, zip_map_fst_snd, List.map_map]
  · simp [write_embedded_batch, write_batch, zip_map_fst_snd, List.map_map]
  · simp [write_embedded_batch, write_batch, zip_map_fst_snd, List.map_map]
  · intro h
    simp only [write_embedded_batch, write_batch, zip_map_fst_snd]
    have hmapany : ∀ (l : List (ChunkData × List ℚ)),
        (l.map (fun p => chunkRowOf p.1 p.2)).any (fun r => r.content_hash == h)
          = l.any (fun p => p.1.content_hash == h) := by
      intro l
      induction l with
      | nil => rfl
      | cons a t ih => rw [List.map_cons, List.any_cons, List.any_cons, ih]; rfl
    show ((s.db.chunks_table.getD []) ++ _).any _ = _
    rw [List.any_append, ← chunk_exists_getD, hmapany]

/-! ## Coordinator delete operations (`lib.rs`) -/

/-- Modelled from the spec: `ContentStore::delete_document` (`content.rs`,
absent from the source tree; spec §4.2): remove the document row with this id
and its chunk rows. -/
def ContentStore.delete_document (cs : ContentStore) (doc_id : String) : ContentStore :=
  { documents := cs.documents.filter (fun d => ¬ d.id = doc_id),
    chunks := cs.chunks.filter (fun c => ¬ c.document_id = doc_id) }

/-- Modelled from the spec: `ContentStore::delete_source` (`content.rs`,
absent from the source tree; spec §4.2: `delete_source([doc_ids])`): remove
the rows of the given document ids and their chunks. -/
def ContentStore.delete_source (cs : ContentStore) (doc_ids : List String) : ContentStore :=
  { documents := cs.documents.filter (fun d => ¬ d.id ∈ doc_ids),
    chunks := cs.chunks.filter (fun c => ¬ c.document_id ∈ doc_ids) }

/-- Modelled from the spec: `BM25Index::delete_source` (`bm25.rs`, absent
from the source tree; spec §4.4): bulk-remove all postings with that source
tag. -/
def bm25_delete_source (postings : List ChunkInput) (source_id : String) : List ChunkInput :=
  postings.filter (fun p => ¬ p.source_id = source_id)

/-- `Eywa::delete_document` (`lib.rs`): delete from the Vector Index
(LanceDB), then from the Content Store (SQLite).  The source performs no
operation on the Keyword Index. -/
def eywaDeleteDocument (s : Stores) (doc_id : String) : Stores :=
  { s with db := s.db.delete_document doc_id,
           content := s.content.delete_document doc_id }

/-- `Eywa::delete_source` (`lib.rs`): fetch the source's document ids, then
delete from the Vector Index, the Keyword (BM25) Index, and the Content
Store. -/
def eywaDeleteSource (s : Stores) (source_id : String) : Stores :=
  let doc_ids := s.db.get_document_ids_for_source source_id
  { db := s.db.delete_source source_id,
    keyword := bm25_delete_source s.keyword source_id,
    content := s.content.delete_source doc_ids }

/-- The store delete calls of `lib.rs` return `anyhow::Result`; their
failures originate in the external engines (LanceDB, the BM25 index file,
SQLite), not in the embedded table state, so whether each call fails — and
with which error — is an oracle parameter.  A successful call performs the
embedded pure update. -/
structure DeleteErrOracle where
  dbDeleteDocumentErr : VectorDB → String → Option String
  dbGetDocIdsErr : VectorDB → String → Option String
  dbDeleteSourceErr : VectorDB → String → Option String
  bm25DeleteSourceErr : List ChunkInput → String → Option String
  contentDeleteDocumentErr : ContentStore → String → Option String
  contentDeleteSourceErr : ContentStore → List String → Option String

/-- `Eywa::delete_document` (`lib.rs`) with the `?` chain made explicit:
delete from the Vector Index (aborting with its error on failure), then
from the Content Store (ditto).  The result is the store state after the
successful prefix of the chain, with the surfaced error if any.  No
operation on the Keyword Index occurs on any path. -/
def eywaDeleteDocumentR (o : DeleteErrOracle) (s : Stores) (doc_id : String) :
    Stores × Option String :=
  match o.dbDeleteDocumentErr s.db doc_id with
  | some e => (s, some e)
  | none =>
    match o.contentDeleteDocumentErr s.content doc_id with
    | some e => ({ s with db := s.db.delete_document doc_id }, some e)
    | none => ({ s with
                  db := s.db.delete_document doc_id,
                  content := s.content.delete_document doc_id }, none)

/-- `Eywa::delete_source` (`lib.rs`) with the `?` chain made explicit: fetch
the source's document ids from the (pre-delete) Vector Index, then delete
from the Vector Index, the Keyword Index and the Content Store in that
order, aborting with the first error and keeping the updates already
made. -/
def eywaDeleteSourceR (o : DeleteErrOracle) (s : Stores) (source_id : String) :
    Stores × Option String :=
  match o.dbGetDocIdsErr s.db source_id with
  | some e => (s, some e)
  | none =>
    match o.dbDeleteSourceErr s.db source_id with
    | some e => (s, some e)
    | none =>
      match o.bm25DeleteSourceErr s.keyword source_id with
      | some e => ({ s with db := s.db.delete_source source_id }, some e)
      | none =>
        match o.contentDeleteSourceErr s.content
            (s.db.get_document_ids_for_source source_id) with
        | some e => ({ s with
                        db := s.db.delete_source source_id,
                        keyword := bm25_delete_source s.keyword source_id }, some e)
        | none => ({ db := s.db.delete_source source_id,
                     keyword := bm25_delete_source s.keyword source_id,
                     content := s.content.delete_source
                       (s.db.get_document_ids_for_source source_id) }, none)

/-- The concrete populated three-store state used to exhibit the
`delete_document` behaviour: one document `"d"` of source `"s"` with one
chunk `"c"` present in all three stores. -/
def populatedStores : Stores where
  db :=
    { chunks_table :=
        some [{ id := "c", document_id := "d", source_id := "s", content_hash := "h" }],
      docs_table :=
        some [{ id := "d", source_id := "s", title := "t", created_at := "2024" }] }
  keyword := [{ chunk_id := "c", source_id := "s", document_id := "d", content := "x" }]
  content :=
    { documents := [{ id := "d", source_id := "s", title := "t", content := "x" }],
      chunks := [{ id := "c", document_id := "d", content := "x" }] }

/-- **C9 counterexample.** `Eywa::delete_document` does not attempt deletion
in the Keyword Index: on a store holding one document with one chunk in all
three stores, deleting the document removes its vector rows and content
rows, yet the keyword posting for the deleted chunk survives unchanged. -/
theorem delete_document_keyword_untouched :
    (eywaDeleteDocument populatedStores "d").keyword
      = [{ chunk_id := "c", source_id := "s", document_id := "d", content := "x" }]
    ∧ (eywaDeleteDocument populatedStores "d").db.chunks_table = some []
    ∧ (eywaDeleteDocument populatedStores "d").content.chunks = [] := by
  refine ⟨rfl, ?_, ?_⟩ <;> decide

/-- **C9 (amended).** `Eywa::delete_source` attempts deletion in all three
stores — Vector Index (id fetch, then delete), Keyword Index, Content
Store, in that order — while `Eywa::delete_document` attempts deletion only
in the Vector Index and the Content Store: the Keyword Index is left
exactly as it was, on every path.  Per-store errors are surfaced to the
caller by early return: the first failing operation's error is the call's
result, the remaining stores are not attempted, and the updates already
made persist.  When every operation succeeds, the success-path states apply
all per-store deletions: no vector row, keyword posting or content document
of the deleted source (resp. the vector/content rows of the deleted
document) remains. -/
theorem delete_operations_spec (o : DeleteErrOracle) (s : Stores)
    (source_id doc_id : String) :
    ((eywaDeleteDocumentR o s doc_id).1.keyword = s.keyword)
    ∧ (∀ e, o.dbDeleteDocumentErr s.db doc_id = some e →
        eywaDeleteDocumentR o s doc_id = (s, some e))
    ∧ (o.dbDeleteDocumentErr s.db doc_id = none →
        ∀ e, o.contentDeleteDocumentErr s.content doc_id = some e →
          eywaDeleteDocumentR o s doc_id
            = ({ s with db := s.db.delete_document doc_id }, some e))
    ∧ (o.dbDeleteDocumentErr s.db doc_id = none →
        o.contentDeleteDocumentErr s.content doc_id = none →
          eywaDeleteDocumentR o s doc_id = (eywaDeleteDocument s doc_id, none))
    ∧ (∀ e, o.dbGetDocIdsErr s.db source_id = some e →
        eywaDeleteSourceR o s source_id = (s, some e))
    ∧ (o.dbGetDocIdsErr s.db source_id = none →
        ∀ e, o.dbDeleteSourceErr s.db source_id = some e →
          eywaDeleteSourceR o s source_id = (s, some e))
    ∧ (o.dbGetDocIdsErr s.db source_id = none →
        o.dbDeleteSourceErr s.db source_id = none →
        ∀ e, o.bm25DeleteSourceErr s.keyword source_id = some e →
          eywaDeleteSourceR o s source_id
            = ({ s with db := s.db.delete_source source_id }, some e))
    ∧ (o.dbGetDocIdsErr s.db source_id = none →
        o.dbDeleteSourceErr s.db source_id = none →
        o.bm25DeleteSourceErr s.keyword source_id = none →
        ∀ e, o.contentDeleteSourceErr s.content
            (s.db.get_document_ids_for_source source_id) = some e →
          eywaDeleteSourceR o s source_id
            = ({ s with
                  db := s.db.delete_source source_id,
                  keyword := bm25_delete_source s.keyword source_id }, some e))
    ∧ (o.dbGetDocIdsErr s.db source_id = none →
        o.dbDeleteSourceErr s.db source_id = none →
        o.bm25DeleteSourceErr s.keyword source_id = none →
        o.contentDeleteSourceErr s.content
            (s.db.get_document_ids_for_source source_id) = none →
          eywaDeleteSourceR o s source_id = (eywaDeleteSource s source_id, none))
    ∧ ((eywaDeleteSource s source_id).db.chunks_table.getD []).all
        (fun r => ¬ r.source_id = source_id)
    ∧ ((eywaDeleteSource s source_id).db.docs_table.getD []).all
        (fun r => ¬ r.source_id = source_id)
    ∧ (eywaDeleteSource s source_id).keyword.all (fun p => ¬ p.source_id = source_id)
    ∧ (eywaDeleteSource s source_id).content.documents.all
        (fun d => ¬ d.id ∈ s.db.get_document_ids_for_source source_id)
    ∧ ((eywaDeleteDocument s doc_id).db.chunks_table.getD []).all
        (fun r => ¬ r.document_id = doc_id)
    ∧ ((eywaDeleteDocument s doc_id).db.docs_table.getD []).all (fun r => ¬ r.id = doc_id)
    ∧ (eywaDeleteDocument s doc_id).content.documents.all (fun d => ¬ d.id = doc_id)
    ∧ (eywaDeleteDocument s doc_id).content.chunks.all (fun c => ¬ c.document_id = doc_id)
    ∧ (eywaDeleteDocument s doc_id).keyword = s.keyword := by
  refine ⟨?_, ?_, ?_, ?_, ?_, ?_, ?_, ?_, ?_, ?_, ?_, ?_, ?_, ?_, ?_, ?_, ?_, ?_⟩
  · unfold eywaDeleteDocumentR
    cases o.dbDeleteDocumentErr s.db doc_id with
    | some e => rfl
    | none =>
      cases o.contentDeleteDocumentErr s.content doc_id with
      | some e => rfl
      | none => rfl
  · intro e he
    unfold eywaDeleteDocumentR
    rw [he]
  · intro h1 e he
    unfold eywaDeleteDocumentR
    rw [h1, he]
  · intro h1 h2
    unfold eywaDeleteDocumentR eywaDeleteDocument
    rw [h1, h2]
  · intro e he
    unfold eywaDeleteSourceR
    rw [he]
  · intro h1 e he
    unfold eywaDeleteSourceR
    rw [h1, he]
  · intro h1 h2 e he
    unfold eywaDeleteSourceR
    rw [h1, h2, he]
  · intro h1 h2 h3 e he
    unfold eywaDeleteSourceR
    rw [h1, h2, h3, he]
  · intro h1 h2 h3 h4
    unfold eywaDeleteSourceR eywaDeleteSource
    rw [h1, h2, h3, h4]
  all_goals rcases s with ⟨⟨ct, dt⟩, kw, cs⟩
  · cases ct <;> simp [eywaDeleteSource, VectorDB.delete_source, List.all_filter]
  · cases dt <;> simp [eywaDeleteSource, VectorDB.delete_source, List.all_filter]
  · simp [eywaDeleteSource, bm25_delete_source, List.all_filter]
  · simp [eywaDeleteSource, ContentStore.delete_source, List.all_filter]
  · cases ct <;> simp [eywaDeleteDocument, VectorDB.delete_document, List.all_filter]
  · cases dt <;> simp [eywaDeleteDocument, VectorDB.delete_document, List.all_filter]
  · simp [eywaDeleteDocument, ContentStore.delete_document, List.all_filter]
  · simp [eywaDeleteDocument, ContentStore.delete_document, List.all_filter]
  · rfl

/-- An oracle on which every store delete call succeeds. -/
def okOracle : DeleteErrOracle where
  dbDeleteDocumentErr := fun _ _ => none
  dbGetDocIdsErr := fun _ _ => none
  dbDeleteSourceErr := fun _ _ => none
  bm25DeleteSourceErr := fun _ _ => none
  contentDeleteDocumentErr := fun _ _ => none
  contentDeleteSourceErr := fun _ _ => none

/-- An oracle on which the Keyword Index delete call fails and every other
call succeeds. -/
def failingBm25Oracle : DeleteErrOracle where
  dbDeleteDocumentErr := fun _ _ => none
  dbGetDocIdsErr := fun _ _ => none
  dbDeleteSourceErr := fun _ _ => none
  bm25DeleteSourceErr := fun _ _ => some "bm25 down"
  contentDeleteDocumentErr := fun _ _ => none
  contentDeleteSourceErr := fun _ _ => none

/-- **C9 witness**: on the populated store, the all-success oracle reaches
the pure success states of both delete operations, and a Keyword Index
failure during `delete_source` is surfaced after the Vector Index deletion
was applied, with the Keyword and Content stores left untouched. -/
theorem delete_operations_spec_witness :
    eywaDeleteDocumentR okOracle populatedStores "d"
      = (eywaDeleteDocument populatedStores "d", none)
    ∧ eywaDeleteSourceR okOracle populatedStores "s"
        = (eywaDeleteSource populatedStores "s", none)
    ∧ eywaDeleteSourceR failingBm25Oracle populatedStores "s"
        = ({ populatedStores with db := populatedStores.db.delete_source "s" },
            some "bm25 down") := by
  obtain ⟨-, -, -, hdoc, -, -, -, -, hsrc, -, -, -, -, -, -, -, -, -⟩ :=
    delete_operations_spec okOracle populatedStores "s" "d"
  obtain ⟨-, -, -, -, -, -, hbm, -, -, -, -, -, -, -, -, -, -, -⟩ :=
    delete_operations_spec failingBm25Oracle populatedStores "s" "d"
  exact ⟨hdoc rfl rfl, hsrc rfl rfl rfl rfl, hbm rfl rfl "bm25 down" rfl⟩

/-! ## Hybrid search (`lib.rs Eywa::search`) and the HTTP search route
(`server/routes.rs handle_search`) -/

/-- A hybrid search result (`types.rs`, `SearchResult`). -/
structure SearchResult where
  id : String
  source_id : String
  title : Option String := none
  content : String
  file_path : Option String := none
  line_start : Option Nat := none
  score : ℚ
deriving DecidableEq

/-- Descending comparison on result scores, used by the rerank re-sort. -/
def resultGE (a b : SearchResult) : Prop := b.score ≤ a.score

instance : DecidableRel resultGE := fun a b => inferInstanceAs (Decidable (b.score ≤ a.score))

instance : IsTotal SearchResult resultGE := ⟨fun a b => le_total b.score a.score⟩

instance : IsTrans SearchResult resultGE := ⟨fun _ _ _ h1 h2 => le_trans h2 h1⟩

/-- Substring test on the list-of-characters view of strings (Rust
`str::contains`). -/
def containsSubstr (s pat : String) : Bool := decide (pat.data.IsInfix s.data)

/-- Rust `str::to_lowercase`, modelled characterwise. -/
def toLowerStr (s : String) : String := String.mk (s.data.map Char.toLower)

/-- Rust `str::split_whitespace`, modelled characterwise: split at
whitespace, dropping empty fragments.  `acc` holds the current fragment in
reverse. -/
def splitTermsAux : List Char → List Char → List String
  | [], acc => if acc.isEmpty then [] else [String.mk acc.reverse]
  | c :: rest, acc =>
    if c.isWhitespace then
      if acc.isEmpty then splitTermsAux rest []
      else String.mk acc.reverse :: splitTermsAux rest []
    else splitTermsAux rest (c :: acc)

/-- Split a query into whitespace-separated terms. -/
def split_whitespace (s : String) : List String := splitTermsAux s.data []

/-- Modelled from the spec: `SearchEngine::filter_results` (`search.rs`,
absent from the source tree; spec §4.7 step 7): discard results with fused
score `< 0.3`. -/
def filter_results (results : List SearchResult) : List SearchResult :=
  results.filter (fun r => ¬ r.score < 3/10)

/-- Modelled from the spec: `SearchEngine::rerank_with_keywords`
(`search.rs`, absent from the source tree; spec §4.7 step 8, keyword-aware
lexical mode): count how many lowercase query terms of length ≥ 3 appear in
each result's text, add a small boost per match (the boost size, unspecified
by the spec, is the parameter `boost`), and re-sort by adjusted score
descending. -/
def rerank_with_keywords (boost : ℚ) (results : List SearchResult) (query : String) :
    List SearchResult :=
  let terms := (split_whitespace (toLowerStr query)).filter (fun t => 3 ≤ t.length)
  let boosted := results.map (fun r =>
    { r with score := r.score + boost * (terms.countP (fun t => containsSubstr r.content t)) })
  boosted.insertionSort resultGE

/-- Lookup in the chunk-id → body association list returned by
`ContentStore::get_chunks` (the `HashMap` the search path collects it
into). -/
def lookupContent (contents : List (String × String)) (id : String) : Option String :=
  (contents.find? (fun p => p.1 == id)).map (·.2)

/-- `Eywa::search` (`lib.rs`): embed the query, retrieve vector candidates at
fixed depth 50 and BM25 candidates at fixed depth 50, fuse with weights
0.8/0.2, hydrate the top `2·limit` ids from the Content Store (dropping ids
with no body or no vector metadata), filter, keyword-rerank, and return the
top `limit`.  The embedder, the two index searches and the content fetch are
oracle parameters. -/
def eywa_search
    (embed : String → List ℚ)
    (dbSearch : List ℚ → Nat → List ChunkMeta)
    (bm25Search : String → Nat → List BM25Result)
    (getChunks : List String → List (String × String))
    (boost : ℚ) (query : String) (limit : Nat) : List SearchResult :=
  let query_embedding := embed query
  let vector_limit := 50
  let bm25_limit := 50
  let chunk_metas := dbSearch query_embedding vector_limit
  let bm25_results := bm25Search query bm25_limit
  let fused_scores := convex_fusion chunk_metas bm25_results (8/10) (2/10)
  if fused_scores.isEmpty then [] else
  let top_ids := (fused_scores.take (limit * 2)).map Prod.fst
  let contents := getChunks top_ids
  let results := (fused_scores.take (limit * 2)).filterMap (fun p =>
    match lookupContent contents p.1, chunk_metas.find? (fun m => m.id == p.1) with
    | some text, some meta =>
      some { id := meta.id, source_id := meta.source_id, title := meta.title,
             content := text, file_path := meta.file_path, line_start := meta.line_start,
             score := p.2 }
    | _, _ => none)
  let results := filter_results results
  let results := rerank_with_keywords boost results query
  results.take limit

/-- `handle_search` (`server/routes.rs`): the HTTP search route.  It embeds
the query, retrieves vector candidates at depth `limit * 2` (performing no
keyword retrieval and no fusion), hydrates bodies, filters, keyword-reranks
and returns the top `limit`. -/
def handle_search
    (embed : String → List ℚ)
    (dbSearch : List ℚ → Nat → List ChunkMeta)
    (getChunks : List String → List (String × String))
    (boost : ℚ) (query : String) (limit : Nat) : List SearchResult :=
  let query_embedding := embed query
  let chunk_metas := dbSearch query_embedding (limit * 2)
  let contents := getChunks (chunk_metas.map (·.id))
  let results := chunk_metas.filterMap (fun meta =>
    (lookupContent contents meta.id).map (fun text =>
      { id := meta.id, source_id := meta.source_id, title := meta.title,
        content := text, file_path := meta.file_path, line_start := meta.line_start,
        score := meta.score : SearchResult }))
  let results := filter_results results
  let results := rerank_with_keywords boost results query
  results.take limit

/-- The vector-search oracle of the counterexample: it returns a scoring
candidate only when queried at depth `10`, and nothing at depth `50`. -/
def dbSearchDepth10 : List ℚ → Nat → List ChunkMeta := fun _ n =>
  if n = 10 then
    [{ id := "c", document_id := "d", source_id := "s", score := 1 }]
  else []

/-- **C4 counterexample.** The HTTP search route does not retrieve vector
candidates at fixed depth 50: with a final limit of 5 it queries the Vector
Index at depth `5 * 2 = 10`.  Two vector-search backends that agree at depth
50 (both empty there) give different `handle_search` responses, so the
route's retrieval depth is not 50; `dbSearchDepth10` only answers at depth
10, and the route returns its candidate. -/
theorem handle_search_not_fixed_depth_50 :
    (∀ e : List ℚ, dbSearchDepth10 e 50 = (fun _ _ => []) e 50)
    ∧ handle_search (fun _ => []) dbSearchDepth10
        (fun ids => ids.map (fun i => (i, "body"))) 0 "q" 5
      = [{ id := "c", source_id := "s", content := "body", score := 1 }]
    ∧ handle_search (fun _ => []) (fun _ _ => [])
        (fun ids => ids.map (fun i => (i, "body"))) 0 "q" 5
      = [] := by
  refine ⟨fun e => by simp [dbSearchDepth10], ?_, rfl⟩
  have hterms : (split_whitespace (toLowerStr "q")).filter (fun t => 3 ≤ t.length) = [] := by
    decide
  simp only [handle_search, dbSearchDepth10, rerank_with_keywords, hterms]
  norm_num [lookupContent, List.find?, filter_results, List.filter, List.filterMap,
    List.insertionSort, List.orderedInsert, List.countP, List.countP.go]

/-- **C4 (amended).** The core hybrid search `Eywa::search` retrieves vector
and keyword candidates at the fixed depth 50 regardless of the requested
`limit`: its result depends on the two index backends only through their
depth-50 answers.  The HTTP route `handle_search` instead depends on the
vector backend only through its depth-`limit * 2` answer and performs no
keyword retrieval at all. -/
theorem search_retrieval_depths
    (embed : String → List ℚ)
    (db db' : List ℚ → Nat → List ChunkMeta)
    (bm bm' : String → Nat → List BM25Result)
    (getChunks : List String → List (String × String))
    (boost : ℚ) (query : String) (limit : Nat)
    (hdb50 : ∀ e, db e 50 = db' e 50)
    (hbm50 : ∀ q, bm q 50 = bm' q 50)
    (hdb2 : ∀ e, db e (limit * 2) = db' e (limit * 2)) :
    eywa_search embed db bm getChunks boost query limit
        = eywa_search embed db' bm' getChunks boost query limit
    ∧ handle_search embed db getChunks boost query limit
        = handle_search embed db' getChunks boost query limit := by
  constructor
  · simp only [eywa_search, hdb50, hbm50]
  · simp only [handle_search, hdb2]

/-- **C4 witness**: the retrieval-depth invariances applied to two concrete
backend pairs agreeing at the relevant depths. -/
theorem search_retrieval_depths_witness :
    eywa_search (fun _ => []) (fun _ _ => []) (fun _ _ => []) (fun _ => []) 0 "q" 5
        = eywa_search (fun _ => []) (fun _ n => if n = 7 then
            [{ id := "c", document_id := "d", source_id := "s", score := 1 }] else [])
          (fun _ _ => []) (fun _ => []) 0 "q" 5
    ∧ handle_search (fun _ => []) (fun _ _ => []) (fun _ => []) 0 "q" 5
        = handle_search (fun _ => []) (fun _ n => if n = 7 then
            [{ id := "c", document_id := "d", source_id := "s", score := 1 }] else [])
          (fun _ => []) 0 "q" 5 :=
  search_retrieval_depths (fun _ => []) (fun _ _ => [])
    (fun _ n => if n = 7 then
      [{ id := "c", document_id := "d", source_id := "s", score := 1 }] else [])
    (fun _ _ => []) (fun _ _ => []) (fun _ => []) 0 "q" 5
    (fun _ => by norm_num) (fun _ => rfl) (fun _ => by norm_num)

/-! ## Chunking (`chunking/mod.rs`, `chunking/markdown.rs`, `chunking/text.rs`)

Strings are handled through characterwise primitives mirroring the Rust
`str` API (`trim`, `starts_with`, byte length, `lines()`, `split`,
`matches(…).count()`), so that the embedding is executable by kernel
reduction. -/

/-- Chunk size parameters (`chunking/mod.rs`). -/
def TARGET_SIZE : Nat := 1500

/-- `OVERLAP` (`chunking/mod.rs`). -/
def OVERLAP : Nat := 200

/-- `MIN_CHUNK` (`chunking/mod.rs`): chunks shorter than this are skipped. -/
def MIN_CHUNK : Nat := 100

/-- `MAX_CHUNK` (`chunking/mod.rs`). -/
def MAX_CHUNK : Nat := 3000

/-- The newline character. -/
def nlChar : Char := '\n'

/-- The carriage-return character. -/
def crChar : Char := '\r'

/-- Rust `str::trim`: drop leading and trailing whitespace. -/
def trimStr (s : String) : String :=
  String.mk (((s.data.dropWhile Char.isWhitespace).reverse.dropWhile Char.isWhitespace).reverse)

/-- Rust `str::starts_with`. -/
def startsWithStr (s pat : String) : Bool := pat.data.isPrefixOf s.data

/-- Rust `str::len`: the UTF-8 byte length. -/
def strByteLen (s : String) : Nat := (s.data.map Char.utf8Size).sum

/-- Rust byte slicing `&s[n..]`, used on the ASCII header prefixes
`"# "`, `"## "`, `"### "` where bytes and characters coincide. -/
def dropStr (s : String) (n : Nat) : String := String.mk (s.data.drop n)

/-- Strip one trailing carriage return (the `\r` of a `\r\n` line ending). -/
def stripCR (l : List Char) : List Char :=
  match l.getLast? with
  | some c => if c = crChar then l.dropLast else l
  | none => l

/-- Worker for `rustLines`; `acc` holds the current line reversed. -/
def linesListAux : List Char → List Char → List (List Char)
  | [], acc => if acc.isEmpty then [] else [acc.reverse]
  | c :: rest, acc =>
    if c = nlChar then stripCR acc.reverse :: linesListAux rest []
    else linesListAux rest (c :: acc)

/-- Rust `str::lines`: split at `\n`, stripping a final `\r` of each
terminated line; the final line ending is optional and a trailing empty
line is not produced. -/
def rustLines (s : String) : List String := (linesListAux s.data []).map String.mk

/-- Worker for `countTicks`: count non-overlapping occurrences of three
backticks; the counter skips the remaining characters of a match. -/
def countTicksAux : List Char → Nat → Nat
  | [], _ => 0
  | _ :: rest, skip + 1 => countTicksAux rest skip
  | c :: rest, 0 =>
    if "```".data.isPrefixOf (c :: rest) then 1 + countTicksAux rest 2
    else countTicksAux rest 0

/-- Rust `content.matches("```").count()`: the number of (non-overlapping)
triple-backtick occurrences. -/
def countTicks (s : String) : Nat := countTicksAux s.data 0

/-- `MarkdownChunker::has_code_blocks` (`markdown.rs`):
`content.contains("```")`. -/
def has_code_blocks (content : String) : Bool := containsSubstr content "```"

/-- Document metadata for chunking context (`chunking/mod.rs`,
`DocMetadata`). -/
structure DocMetadata where
  document_id : String
  source_id : String
  file_path : Option String := none
deriving DecidableEq

/-- Metadata of a chunk (`chunking/mod.rs`, `ChunkMetadata`). -/
structure ChunkMetadata where
  document_id : String
  source_id : String
  file_path : Option String := none
  title : Option String := none
  «section» : Option String := none
  subsection : Option String := none
  hierarchy : List String := []
  has_code : Bool := false
  line_start : Nat := 1
  line_end : Nat := 1
  content_hash : String := ""
deriving DecidableEq

/-- `ChunkMetadata::new` (`chunking/mod.rs`). -/
def ChunkMetadata.new (doc : DocMetadata) : ChunkMetadata :=
  { document_id := doc.document_id, source_id := doc.source_id,
    file_path := doc.file_path }

/-- `ChunkMetadata::with_title` (`chunking/mod.rs`): set the title and
insert it at the front of the hierarchy when absent there. -/
def ChunkMetadata.with_title (m : ChunkMetadata) (title : Option String) : ChunkMetadata :=
  match title with
  | none => { m with title := none }
  | some t =>
    if m.hierarchy.isEmpty || m.hierarchy.headD "" ≠ t then
      { m with title := some t, hierarchy := t :: m.hierarchy }
    else
      { m with title := some t }

/-- `ChunkMetadata::with_section` (`chunking/mod.rs`): set the section and
place it at hierarchy index 1, padding index 0 with an empty string when
needed. -/
def ChunkMetadata.with_section (m : ChunkMetadata) (sec : Option String) : ChunkMetadata :=
  match sec with
  | none => { m with «section» := none }
  | some s =>
    let h := if m.hierarchy.length < 1 then m.hierarchy ++ [""] else m.hierarchy
    let h := if h.length = 1 then h ++ [s] else h.set 1 s
    { m with «section» := some s, hierarchy := h }

/-- `ChunkMetadata::with_subsection` (`chunking/mod.rs`): set the subsection
and place it at hierarchy index 2, padding with empty strings when
needed. -/
def ChunkMetadata.with_subsection (m : ChunkMetadata) (sub : Option String) : ChunkMetadata :=
  match sub with
  | none => { m with subsection := none }
  | some s =>
    let h := m.hierarchy ++ List.replicate (2 - m.hierarchy.length) ""
    let h := if h.length = 2 then h ++ [s] else h.set 2 s
    { m with subsection := some s, hierarchy := h }

/-- `ChunkMetadata::with_lines` (`chunking/mod.rs`). -/
def ChunkMetadata.with_lines (m : ChunkMetadata) (start stop : Nat) : ChunkMetadata :=
  { m with line_start := start, line_end := stop }

/-- `ChunkMetadata::with_code` (`chunking/mod.rs`). -/
def ChunkMetadata.with_code (m : ChunkMetadata) (has_code : Bool) : ChunkMetadata :=
  { m with has_code := has_code }

/-- A chunk of content with metadata (`chunking/mod.rs`, `Chunk`).  The
freshly generated UUID `id` is external randomness and is omitted. -/
structure Chunk where
  content : String
  metadata : ChunkMetadata
deriving DecidableEq

/-- `create_chunk` (`chunking/mod.rs`): stamp the content hash (the md5
digest is the external black box `hash`) onto the metadata. -/
def create_chunk (hash : String → String) (content : String) (metadata : ChunkMetadata) :
    Chunk :=
  { content := content, metadata := { metadata with content_hash := hash content } }

/-- Current section context while parsing markdown (`markdown.rs`,
`SectionContext`). -/
structure SectionContext where
  title : Option String := none
  «section» : Option String := none
  subsection : Option String := none
deriving DecidableEq

/-- `SectionContext::to_hierarchy` (`markdown.rs`): the present levels,
outermost first. -/
def SectionContext.to_hierarchy (c : SectionContext) : List String :=
  c.title.toList ++ c.«section».toList ++ c.subsection.toList

/-- The pre-scan of `split_into_sections` (`markdown.rs`): extract the title
from the first H1 outside code fences, stopping at the first non-empty
non-header line. -/
def prescanTitle : List String → Bool → Option String
  | [], _ => none
  | l :: rest, inCode =>
    let trimmed := trimStr l
    if startsWithStr trimmed "```" then prescanTitle rest (!inCode)
    else if inCode then prescanTitle rest inCode
    else if startsWithStr trimmed "# " && !(startsWithStr trimmed "##") then
      some (trimStr (dropStr trimmed 2))
    else if !(trimmed.data.isEmpty) && !(startsWithStr trimmed "#") then none
    else prescanTitle rest inCode

/-- A section produced by the markdown splitter: context, content, first and
last line. -/
structure MdSection where
  ctx : SectionContext
  content : String
  startLine : Nat
  endLine : Nat
deriving DecidableEq

/-- Mutable state of the `split_into_sections` line loop (`markdown.rs`). -/
structure SplitSectionsState where
  sections : List MdSection := []
  ctx : SectionContext := {}
  current : String := ""
  startLine : Nat := 1
  line : Nat := 1
  inCode : Bool := false
deriving DecidableEq

/-- One line of the `split_into_sections` loop (`markdown.rs`): track the
code-fence toggle, detect H1/H2/H3 headers outside code (closing the
running section and updating the context), and append regular content. -/
def sectionsStep (st : SplitSectionsState) (l : String) : SplitSectionsState :=
  let trimmed := trimStr l
  if startsWithStr trimmed "```" then
    { st with inCode := !st.inCode, current := st.current ++ l ++ "\n", line := st.line + 1 }
  else if st.inCode then
    { st with current := st.current ++ l ++ "\n", line := st.line + 1 }
  else if startsWithStr trimmed "# " && !(startsWithStr trimmed "##") then
    let sections := if (trimStr st.current).data.isEmpty then st.sections
      else st.sections ++ [⟨st.ctx, st.current, st.startLine, st.line - 1⟩]
    { sections := sections,
      ctx := ⟨some (trimStr (dropStr trimmed 2)), none, none⟩,
      current := l ++ "\n", startLine := st.line, line := st.line + 1, inCode := st.inCode }
  else if startsWithStr trimmed "## " && !(startsWithStr trimmed "###") then
    let sections := if (trimStr st.current).data.isEmpty then st.sections
      else st.sections ++ [⟨st.ctx, st.current, st.startLine, st.line - 1⟩]
    { sections := sections,
      ctx := ⟨st.ctx.title, some (trimStr (dropStr trimmed 3)), none⟩,
      current := l ++ "\n", startLine := st.line, line := st.line + 1, inCode := st.inCode }
  else if startsWithStr trimmed "### " then
    let sections := if (trimStr st.current).data.isEmpty then st.sections
      else st.sections ++ [⟨st.ctx, st.current, st.startLine, st.line - 1⟩]
    { sections := sections,
      ctx := { st.ctx with subsection := some (trimStr (dropStr trimmed 4)) },
      current := l ++ "\n", startLine := st.line, line := st.line + 1, inCode := st.inCode }
  else
    { st with current := st.current ++ l ++ "\n", line := st.line + 1 }

/-- `MarkdownChunker::split_into_sections` (`markdown.rs`): pre-scan the
title, fold the line loop, and flush the final non-blank section. -/
def split_into_sections (content : String) : List MdSection :=
  let lines := rustLines content
  let st0 : SplitSectionsState :=
    { ctx := { title := prescanTitle lines false } }
  let st := lines.foldl sectionsStep st0
  if (trimStr st.current).data.isEmpty then st.sections
  else st.sections ++ [⟨st.ctx, st.current, st.startLine, st.line - 1⟩]

/-- The chunk metadata attached to a markdown section chunk: context
snapshot, line range, code flag, and the hierarchy overridden with
`to_hierarchy` (`markdown.rs`). -/
def sectionMeta (md : DocMetadata) (ctx : SectionContext) (startLine endLine : Nat)
    (has_code : Bool) : ChunkMetadata :=
  let meta := ((((ChunkMetadata.new md).with_title ctx.title).with_section
    ctx.«section»).with_subsection ctx.subsection).with_lines startLine endLine
  let meta := meta.with_code has_code
  { meta with hierarchy := ctx.to_hierarchy }

/-- Mutable state of the `split_large_section` line loop (`markdown.rs`). -/
structure LargeSplitState where
  chunks : List Chunk := []
  current : String := ""
  chunkStart : Nat := 1
  line : Nat := 1
  inCode : Bool := false
deriving DecidableEq

/-- One line of the `split_large_section` loop (`markdown.rs`): toggle the
fence state, emit the running chunk when it would overflow `target_size`
(but never inside a code block, never at a fence line, and only when it
already meets `MIN_CHUNK`), and append the line. -/
def largeStep (hash : String → String) (target_size : Nat) (md : DocMetadata)
    (ctx : SectionContext) (st : LargeSplitState) (l : String) : LargeSplitState :=
  let trimmed := trimStr l
  let is_code_fence := startsWithStr trimmed "```"
  let inCode := if is_code_fence then !st.inCode else st.inCode
  let line_with_newline := l ++ "\n"
  if !inCode && !is_code_fence
      && decide (target_size < strByteLen st.current + strByteLen line_with_newline)
      && decide (MIN_CHUNK ≤ strByteLen st.current) then
    let meta := sectionMeta md ctx st.chunkStart (st.line - 1) (has_code_blocks st.current)
    { chunks := st.chunks ++ [create_chunk hash st.current meta],
      current := line_with_newline, chunkStart := st.line, line := st.line + 1,
      inCode := inCode }
  else
    { st with current := st.current ++ line_with_newline, line := st.line + 1,
              inCode := inCode }

/-- `MarkdownChunker::split_large_section` (`markdown.rs`): split an
oversized section line by line, emitting the final chunk when it meets
`MIN_CHUNK`. -/
def split_large_section (hash : String → String) (target_size : Nat) (ctx : SectionContext)
    (content : String) (start_line : Nat) (md : DocMetadata) : List Chunk :=
  let lines := rustLines content
  let st := lines.foldl (largeStep hash target_size md ctx)
    { chunkStart := start_line, line := start_line }
  if MIN_CHUNK ≤ strByteLen st.current then
    st.chunks ++ [create_chunk hash st.current
      (sectionMeta md ctx st.chunkStart (st.line - 1) (has_code_blocks st.current))]
  else st.chunks

/-- The per-section pass of `MarkdownChunker::chunk` (`markdown.rs`): emit
each small-enough section (when it meets `MIN_CHUNK`) as one chunk, and
split oversized sections further. -/
def sectionPassChunks (hash : String → String) (target_size : Nat) (content : String)
    (md : DocMetadata) : List Chunk :=
  (split_into_sections content).foldl (fun acc sec =>
    if strByteLen sec.content ≤ target_size then
      if MIN_CHUNK ≤ strByteLen sec.content then
        acc ++ [create_chunk hash sec.content
          (sectionMeta md sec.ctx sec.startLine sec.endLine (has_code_blocks sec.content))]
      else acc
    else acc ++ split_large_section hash target_size sec.ctx sec.content sec.startLine md) []

/-- `MarkdownChunker::chunk` (`markdown.rs`): empty or whitespace-only
content yields no chunks; otherwise run the per-section pass, and when it
produced nothing and the whole document meets `MIN_CHUNK`, emit a single
chunk holding the full content. -/
def markdownChunk (hash : String → String) (target_size : Nat) (content : String)
    (md : DocMetadata) : List Chunk :=
  if (trimStr content).data.isEmpty then []
  else
    let chunks := sectionPassChunks hash target_size content md
    if chunks.isEmpty && decide (MIN_CHUNK ≤ strByteLen content) then
      [create_chunk hash content
        (((ChunkMetadata.new md).with_lines 1 (rustLines content).length).with_code
          (has_code_blocks content))]
    else chunks

/-- Worker for `splitNN`: split at non-overlapping `"\n\n"` occurrences;
`skip` consumes the second separator character after a match. -/
def splitNNAux : List Char → List Char → Nat → List (List Char)
  | [], acc, _ => [acc.reverse]
  | _ :: rest, acc, skip + 1 => splitNNAux rest acc skip
  | c :: rest, acc, 0 =>
    if c = nlChar && rest.head? == some nlChar then acc.reverse :: splitNNAux rest [] 1
    else splitNNAux rest (c :: acc) 0

/-- Rust `content.split("\n\n")`: the fragments between non-overlapping
double-newline separators, empties included. -/
def splitNN (s : String) : List String := (splitNNAux s.data [] 0).map String.mk

/-- `TextChunker::split_paragraphs` (`text.rs`): split on blank lines, trim
each paragraph, drop empty ones. -/
def split_paragraphs (content : String) : List String :=
  ((splitNN content).map trimStr).filter (fun p => !p.data.isEmpty)

/-- `TextChunker::count_lines` (`text.rs`): `s.lines().count().max(1)`. -/
def count_lines (s : String) : Nat := (rustLines s).length.max 1

/-- Rust `Path::file_name` on a string path: the last non-empty
slash-separated component (the `..` special case does not arise here). -/
def fileName (p : String) : Option String :=
  (((p.data.splitOn '/').map String.mk).filter (fun c => !c.data.isEmpty)).getLast?

/-- Mutable state of the `TextChunker::chunk` paragraph loop (`text.rs`). -/
structure TextState where
  chunks : List Chunk := []
  current : String := ""
  chunkStart : Nat := 1
  line : Nat := 1
deriving DecidableEq

/-- One paragraph of the `TextChunker::chunk` loop (`text.rs`): flush the
running chunk when the next paragraph would overflow `target_size`
(emitting it only when it meets `MIN_CHUNK`, and seeding the next chunk
with the paragraph when it is shorter than `overlap`), then append the
paragraph and advance the line counter. -/
def textStep (hash : String → String) (target_size overlap : Nat) (md : DocMetadata)
    (title : Option String) (st : TextState) (para : String) : TextState :=
  let para_with_sep := if st.current.data.isEmpty then para else "\n\n" ++ para
  let st :=
    if decide (target_size < strByteLen st.current + strByteLen para_with_sep)
        && !st.current.data.isEmpty then
      let chunks :=
        if MIN_CHUNK ≤ strByteLen st.current then
          let line_end := st.chunkStart + count_lines st.current - 1
          st.chunks ++ [create_chunk hash st.current
            (((ChunkMetadata.new md).with_title title).with_lines st.chunkStart line_end)]
        else st.chunks
      if strByteLen para < overlap then
        { st with chunks := chunks, current := para, chunkStart := st.line }
      else
        { st with chunks := chunks, current := "", chunkStart := st.line }
    else st
  let st :=
    if st.current.data.isEmpty then
      { st with current := para, chunkStart := st.line }
    else
      { st with current := st.current ++ ("\n\n" ++ para) }
  { st with line := st.line + count_lines para + 1 }

/-- `TextChunker::chunk` (`text.rs`): paragraph-based chunking.  Note that
it has no whole-document fallback: when every accumulated chunk stays below
`MIN_CHUNK` the result is empty. -/
def textChunk (hash : String → String) (target_size overlap : Nat) (content : String)
    (md : DocMetadata) : List Chunk :=
  if (trimStr content).data.isEmpty then []
  else
    let paragraphs := split_paragraphs content
    if paragraphs.isEmpty then []
    else
      let title := md.file_path.bind fileName
      let st := paragraphs.foldl (textStep hash target_size overlap md title) {}
      if MIN_CHUNK ≤ strByteLen st.current then
        let line_end := st.chunkStart + count_lines st.current - 1
        st.chunks ++ [create_chunk hash st.current
          (((ChunkMetadata.new md).with_title title).with_lines st.chunkStart line_end)]
      else st.chunks

/-! ## Concrete documents used to refute or witness the chunking claims -/

/-- A fixed document metadata record for concrete chunking runs. -/
def mdMeta : DocMetadata := { document_id := "d", source_id := "s" }

/-- A document whose single H3 heading is preceded by no H1 or H2. -/
def docOnlyH3 : String := "### Sub\n" ++ String.mk (List.replicate 100 'a')

/-- A document with a single mid-line triple-backtick occurrence. -/
def docOddTicks : String := "x ``` y " ++ String.mk (List.replicate 100 'a')

/-- A 151-byte text document whose only paragraph trims to one byte. -/
def docTinyPara : String := "a" ++ String.mk (List.replicate 150 ' ')

/-- A 105-byte markdown document all of whose sections are shorter than
`MIN_CHUNK`, so the per-section pass emits nothing. -/
def docSmallSections : String :=
  "# A\nzz\n# B\nzz\n# C\nzz\n# D\nzz\n# E\nzz\n# F\nzz\n# G\nzz\n# H\nzz\n# I\nzz\n"
  ++ "# J\nzz\n# K\nzz\n# L\nzz\n# M\nzz\n# N\nzz\n# O\nzz\n"

/-- **C7 counterexample.** A document starting with an H3 heading and no H1
or H2 produces a chunk whose `subsection` is `Some "Sub"` while both `title`
and `section` are `None`. -/
theorem markdown_subsection_without_title :
    (markdownChunk (fun _ => "") TARGET_SIZE docOnlyH3 mdMeta).map
      (fun c => (c.metadata.title, c.metadata.«section», c.metadata.subsection))
      = [(none, none, some "Sub")] := by
  decide

/-- **C6 counterexample.** A document containing a single mid-line
triple-backtick produces a chunk with an odd (namely one) number of
`` ``` `` substrings. -/
theorem markdown_chunk_odd_ticks :
    (markdownChunk (fun _ => "") TARGET_SIZE docOddTicks mdMeta).map
      (fun c => countTicks c.content) = [1] := by
  decide

set_option maxRecDepth 8000 in
/-- **C8 counterexample.** The text chunker has no whole-document fallback: a
151-byte document (one paragraph trimming to a single byte) produces zero
chunks even though the full content meets `MIN_CHUNK`. -/
theorem text_chunker_no_fallback :
    textChunk (fun _ => "") TARGET_SIZE OVERLAP docTinyPara mdMeta = []
    ∧ MIN_CHUNK ≤ strByteLen docTinyPara := by
  decide

-- ### Minimum-length invariants of the emitted chunks

lemma create_chunk_content (hash : String → String) (content : String) (m : ChunkMetadata) :
    (create_chunk hash content m).content = content := rfl

lemma largeStep_chunks (hash : String → String) (ts : Nat) (md : DocMetadata)
    (ctx : SectionContext) (st : LargeSplitState) (l : String) :
    (largeStep hash ts md ctx st l).chunks = st.chunks
    ∨ ∃ ck, (largeStep hash ts md ctx st l).chunks = st.chunks ++ [ck]
        ∧ MIN_CHUNK ≤ strByteLen ck.content := by
  unfold largeStep
  dsimp only
  split <;>
  · split
    next h =>
      right
      exact ⟨_, rfl, of_decide_eq_true ((Bool.and_eq_true _ _).mp h).2⟩
    next =>
      left; rfl

lemma foldl_largeStep_min (hash : String → String) (ts : Nat) (md : DocMetadata)
    (ctx : SectionContext) (lines : List String) (st : LargeSplitState)
    (h : ∀ c ∈ st.chunks, MIN_CHUNK ≤ strByteLen c.content) :
    ∀ c ∈ (lines.foldl (largeStep hash ts md ctx) st).chunks,
      MIN_CHUNK ≤ strByteLen c.content := by
  induction lines generalizing st with
  | nil => exact h
  | cons l rest ih =>
    rw [List.foldl_cons]
    apply ih
    rcases largeStep_chunks hash ts md ctx st l with heq | ⟨ck, heq, hck⟩
    · rw [heq]; exact h
    · rw [heq]
      intro c hc
      rcases List.mem_append.mp hc with h1 | h2
      · exact h c h1
      · rw [List.mem_singleton.mp h2]; exact hck

lemma split_large_section_min (hash : String → String) (ts : Nat) (ctx : SectionContext)
    (content : String) (sl : Nat) (md : DocMetadata) :
    ∀ c ∈ split_large_section hash ts ctx content sl md,
      MIN_CHUNK ≤ strByteLen c.content := by
  unfold split_large_section
  dsimp only
  split
  next hmin =>
    intro c hc
    rcases List.mem_append.mp hc with h1 | h2
    · exact foldl_largeStep_min hash ts md ctx _ _ (by intro c hc; cases hc) c h1
    · rw [List.mem_singleton.mp h2]; exact hmin
  next =>
    exact foldl_largeStep_min hash ts md ctx _ _ (by intro c hc; cases hc)

lemma sectionPassChunks_min (hash : String → String) (ts : Nat) (content : String)
    (md : DocMetadata) :
    ∀ c ∈ sectionPassChunks hash ts content md, MIN_CHUNK ≤ strByteLen c.content := by
  unfold sectionPassChunks
  have main : ∀ (secs : List MdSection) (acc : List Chunk),
      (∀ c ∈ acc, MIN_CHUNK ≤ strByteLen c.content) →
      ∀ c ∈ secs.foldl (fun acc sec =>
        if strByteLen sec.content ≤ ts then
          if MIN_CHUNK ≤ strByteLen sec.content then
            acc ++ [create_chunk hash sec.content
              (sectionMeta md sec.ctx sec.startLine sec.endLine
                (has_code_blocks sec.content))]
          else acc
        else acc ++ split_large_section hash ts sec.ctx sec.content sec.startLine md) acc,
      MIN_CHUNK ≤ strByteLen c.content := by
    intro secs
    induction secs with
    | nil => intro acc h; exact h
    | cons sec rest ih =>
      intro acc h
      rw [List.foldl_cons]
      apply ih
      by_cases h1 : strByteLen sec.content ≤ ts
      · by_cases h2 : MIN_CHUNK ≤ strByteLen sec.content
        · rw [if_pos h1, if_pos h2]
          intro c hc
          rcases List.mem_append.mp hc with ha | hb
          · exact h c ha
          · rw [List.mem_singleton.mp hb]; exact h2
        · rw [if_pos h1, if_neg h2]; exact h
      · rw [if_neg h1]
        intro c hc
        rcases List.mem_append.mp hc with ha | hb
        · exact h c ha
        · exact split_large_section_min hash ts sec.ctx sec.content sec.startLine md c hb
  exact main _ [] (by intro c hc; cases hc)

lemma textStep_chunks (hash : String → String) (ts ov : Nat) (md : DocMetadata)
    (title : Option String) (st : TextState) (para : String) :
    (textStep hash ts ov md title st para).chunks = st.chunks
    ∨ ∃ ck, (textStep hash ts ov md title st para).chunks = st.chunks ++ [ck]
        ∧ MIN_CHUNK ≤ strByteLen ck.content := by
  unfold textStep
  dsimp only
  split_ifs
  all_goals first
    | (left; rfl)
    | (right; exact ⟨_, rfl, by assumption⟩)

lemma foldl_textStep_min (hash : String → String) (ts ov : Nat) (md : DocMetadata)
    (title : Option String) (paras : List String) (st : TextState)
    (h : ∀ c ∈ st.chunks, MIN_CHUNK ≤ strByteLen c.content) :
    ∀ c ∈ (paras.foldl (textStep hash ts ov md title) st).chunks,
      MIN_CHUNK ≤ strByteLen c.content := by
  induction paras generalizing st with
  | nil => exact h
  | cons p rest ih =>
    rw [List.foldl_cons]
    apply ih
    rcases textStep_chunks hash ts ov md title st p with heq | ⟨ck, heq, hck⟩
    · rw [heq]; exact h
    · rw [heq]
      intro c hc
      rcases List.mem_append.mp hc with h1 | h2
      · exact h c h1
      · rw [List.mem_singleton.mp h2]; exact hck

/-- **C8 (amended).** For the chunkers whose source is present (markdown and
text; the PDF chunker delegates to the markdown one): every emitted chunk is
at least `MIN_CHUNK = 100` bytes long — shorter chunks are dropped — and the
*markdown* chunker emits exactly one chunk containing the full document
content when its per-section pass produces zero chunks and the document
meets `MIN_CHUNK`.  The text chunker has no such whole-document fallback
(see the counterexample). -/
theorem chunkers_min_chunk (hash : String → String) (ts ov : Nat) (content : String)
    (md : DocMetadata) :
    (∀ c ∈ markdownChunk hash ts content md, MIN_CHUNK ≤ strByteLen c.content)
    ∧ (∀ c ∈ textChunk hash ts ov content md, MIN_CHUNK ≤ strByteLen c.content)
    ∧ (sectionPassChunks hash ts content md = [] →
        (trimStr content).data.isEmpty = false →
        MIN_CHUNK ≤ strByteLen content →
        markdownChunk hash ts content md
          = [create_chunk hash content
              (((ChunkMetadata.new md).with_lines 1 (rustLines content).length).with_code
                (has_code_blocks content))]) := by
  refine ⟨?_, ?_, ?_⟩
  · intro c hc
    unfold markdownChunk at hc
    by_cases hblank : (trimStr content).data.isEmpty
    · rw [if_pos hblank] at hc; cases hc
    · rw [if_neg hblank] at hc
      dsimp only at hc
      rcases hcond : ((sectionPassChunks hash ts content md).isEmpty
          && decide (MIN_CHUNK ≤ strByteLen content)) with _ | _
      · rw [if_neg (by rw [hcond]; exact Bool.false_ne_true)] at hc
        exact sectionPassChunks_min hash ts content md c hc
      · rw [if_pos hcond] at hc
        rw [List.mem_singleton.mp hc]
        exact of_decide_eq_true ((Bool.and_eq_true _ _).mp hcond).2
  · intro c hc
    unfold textChunk at hc
    by_cases hblank : (trimStr content).data.isEmpty
    · rw [if_pos hblank] at hc; cases hc
    · rw [if_neg hblank] at hc
      dsimp only at hc
      by_cases hp : (split_paragraphs content).isEmpty
      · rw [if_pos hp] at hc; cases hc
      · rw [if_neg hp] at hc
        by_cases hmin : MIN_CHUNK ≤ strByteLen ((split_paragraphs content).foldl
            (textStep hash ts ov md (md.file_path.bind fileName)) {}).current
        · rw [if_pos hmin] at hc
          rcases List.mem_append.mp hc with h1 | h2
          · exact foldl_textStep_min hash ts ov md _ _ _ (by intro c hc; cases hc) c h1
          · rw [List.mem_singleton.mp h2]; exact hmin
        · rw [if_neg hmin] at hc
          exact foldl_textStep_min hash ts ov md _ _ _ (by intro c hc; cases hc) c hc
  · intro hsp hblank hmin
    unfold markdownChunk
    rw [if_neg (by rw [hblank]; exact Bool.false_ne_true)]
    dsimp only
    rw [if_pos (by rw [hsp, decide_eq_true hmin]; rfl)]

/-- **C8 witness**: on a 105-byte markdown document all of whose sections
are tiny, the per-section pass is empty and the chunker emits exactly the
whole-document chunk; its length and the length of every text-chunker chunk
of the same document meet `MIN_CHUNK`. -/
theorem chunkers_min_chunk_witness :
    markdownChunk (fun _ => "") TARGET_SIZE docSmallSections mdMeta
      = [create_chunk (fun _ => "") docSmallSections
          (((ChunkMetadata.new mdMeta).with_lines 1
              (rustLines docSmallSections).length).with_code
            (has_code_blocks docSmallSections))]
    ∧ ∀ c ∈ markdownChunk (fun _ => "") TARGET_SIZE docSmallSections mdMeta,
        MIN_CHUNK ≤ strByteLen c.content := by
  have h := chunkers_min_chunk (fun _ => "") TARGET_SIZE OVERLAP docSmallSections mdMeta
  exact ⟨h.2.2 (by decide) (by decide) (by decide), h.1⟩

/-! ## Hierarchy consistency of the markdown chunker -/

/-- A line that toggles the fenced-code state: its trimmed form starts with
three backticks. -/
def isFenceLine (l : String) : Bool := startsWithStr (trimStr l) "```"

/-- The H1 test of the markdown line loop. -/
def hdr1 (l : String) : Bool :=
  startsWithStr (trimStr l) "# " && !(startsWithStr (trimStr l) "##")

/-- The H2 test of the markdown line loop. -/
def hdr2 (l : String) : Bool :=
  startsWithStr (trimStr l) "## " && !(startsWithStr (trimStr l) "###")

/-- The H3 test of the markdown line loop. -/
def hdr3 (l : String) : Bool := startsWithStr (trimStr l) "### "

/-- The fenced-code state after scanning the given lines (false = outside a
code block), i.e. the parity of the fence lines seen. -/
def codeParity (ls : List String) : Bool :=
  ls.foldl (fun b l => if isFenceLine l then !b else b) false

/-- Line `i` is an *effective* H1: an H1 heading line reached outside a code
fence by the markdown line loop. -/
def effH1 (ls : List String) (i : Nat) : Prop :=
  i < ls.length ∧ isFenceLine (ls.getD i "") = false
    ∧ codeParity (ls.take i) = false ∧ hdr1 (ls.getD i "") = true

/-- Line `i` is an effective H2 (reached outside code, not an H1). -/
def effH2 (ls : List String) (i : Nat) : Prop :=
  i < ls.length ∧ isFenceLine (ls.getD i "") = false
    ∧ codeParity (ls.take i) = false ∧ hdr1 (ls.getD i "") = false
    ∧ hdr2 (ls.getD i "") = true

/-- Line `i` is an effective H3 (reached outside code, not an H1 or H2). -/
def effH3 (ls : List String) (i : Nat) : Prop :=
  i < ls.length ∧ isFenceLine (ls.getD i "") = false
    ∧ codeParity (ls.take i) = false ∧ hdr1 (ls.getD i "") = false
    ∧ hdr2 (ls.getD i "") = false ∧ hdr3 (ls.getD i "") = true

/-- Well-nested headings: every effective H3 is preceded by an effective H1,
and by an effective H2 with no intervening effective H1. -/
def GoodHeadings (ls : List String) : Prop :=
  ∀ i, effH3 ls i →
    (∃ j, j < i ∧ effH1 ls j)
    ∧ (∃ j, j < i ∧ effH2 ls j ∧ ∀ k, j < k → k < i → ¬ effH1 ls k)

/-- Hierarchy consistency of a section context: a present subsection forces
a present title and section. -/
def ctxOK (c : SectionContext) : Prop :=
  c.subsection.isSome → (c.title.isSome ∧ c.«section».isSome)

/-- Hierarchy consistency of chunk metadata. -/
def metaOK (m : ChunkMetadata) : Prop :=
  m.subsection.isSome → (m.title.isSome ∧ m.«section».isSome)

lemma getD_append_cons {α : Type} (pre suf : List α) (x d : α) :
    (pre ++ x :: suf).getD pre.length d = x := by
  rw [List.getD, List.get?_eq_getElem?, List.getElem?_append_right (le_refl _)]
  simp

lemma take_append_cons {α : Type} (pre suf : List α) (x : α) :
    (pre ++ x :: suf).take pre.length = pre := by
  have := List.take_left pre (x :: suf)
  exact this

lemma take_append_cons_succ {α : Type} (pre suf : List α) (x : α) :
    (pre ++ x :: suf).take (pre.length + 1) = pre ++ [x] := by
  have h : pre ++ x :: suf = (pre ++ [x]) ++ suf := by simp
  rw [h]
  have := List.take_left (pre ++ [x]) suf
  simpa using this

lemma codeParity_append_singleton (pre : List String) (l : String) :
    codeParity (pre ++ [l]) = if isFenceLine l then !(codeParity pre) else codeParity pre := by
  unfold codeParity
  rw [List.foldl_append]
  rfl

/-- The loop invariant of `split_into_sections` for hierarchy consistency:
the fenced state matches the prefix parity, the running and emitted contexts
are consistent, the title is present once an effective H1 was processed, and
the section is present once an effective H2 with no later H1 was
processed. -/
def SectionsInv (ls pre : List String) (st : SplitSectionsState) : Prop :=
  st.inCode = codeParity pre
  ∧ ctxOK st.ctx
  ∧ (∀ sec ∈ st.sections, ctxOK sec.ctx)
  ∧ ((∃ j, j < pre.length ∧ effH1 ls j) → st.ctx.title.isSome)
  ∧ (∀ j, j < pre.length → effH2 ls j →
      (∀ k, j < k → k < pre.length → ¬ effH1 ls k) → st.ctx.«section».isSome)

lemma mem_push_sections {P : MdSection → Prop} (c : Bool) (s : List MdSection)
    (x : MdSection) (hs : ∀ sec ∈ s, P sec) (hx : P x) :
    ∀ sec ∈ (if c = true then s else s ++ [x]), P sec := by
  intro sec hsec
  by_cases hc : c = true
  · rw [if_pos hc] at hsec; exact hs sec hsec
  · rw [if_neg hc] at hsec
    rcases List.mem_append.mp hsec with h | h
    · exact hs sec h
    · rw [List.mem_singleton.mp h]; exact hx

lemma sectionsStep_inv (ls pre suf : List String) (l : String)
    (hls : ls = pre ++ l :: suf) (hgood : GoodHeadings ls)
    (st : SplitSectionsState) (hinv : SectionsInv ls pre st) :
    SectionsInv ls (pre ++ [l]) (sectionsStep st l) := by
  obtain ⟨hic, hctx, hsecs, htitle, hsec⟩ := hinv
  have hget : ls.getD pre.length "" = l := by rw [hls]; exact getD_append_cons pre suf l ""
  have htake : ls.take pre.length = pre := by rw [hls]; exact take_append_cons pre suf l
  have hlen : pre.length < ls.length := by rw [hls]; simp
  have hlen1 : (pre ++ [l]).length = pre.length + 1 := by simp
  have hH1i : effH1 ls pre.length ↔
      (isFenceLine l = false ∧ codeParity pre = false ∧ hdr1 l = true) := by
    unfold effH1
    rw [hget, htake]
    exact ⟨fun ⟨_, a, b, c⟩ => ⟨a, b, c⟩, fun ⟨a, b, c⟩ => ⟨hlen, a, b, c⟩⟩
  have hH2i : effH2 ls pre.length ↔
      (isFenceLine l = false ∧ codeParity pre = false ∧ hdr1 l = false ∧ hdr2 l = true) := by
    unfold effH2
    rw [hget, htake]
    exact ⟨fun ⟨_, a, b, c, d⟩ => ⟨a, b, c, d⟩, fun ⟨a, b, c, d⟩ => ⟨hlen, a, b, c, d⟩⟩
  have hH3i : effH3 ls pre.length ↔
      (isFenceLine l = false ∧ codeParity pre = false ∧ hdr1 l = false ∧ hdr2 l = false
        ∧ hdr3 l = true) := by
    unfold effH3
    rw [hget, htake]
    exact ⟨fun ⟨_, a, b, c, d, e⟩ => ⟨a, b, c, d, e⟩, fun ⟨a, b, c, d, e⟩ => ⟨hlen, a, b, c, d, e⟩⟩
  unfold sectionsStep
  by_cases hf : isFenceLine l = true
  · -- fence line: toggle the code state
    have hf' : startsWithStr (trimStr l) "```" = true := hf
    simp only [hf', if_true]
    refine ⟨?_, hctx, hsecs, ?_, ?_⟩
    · rw [codeParity_append_singleton, if_pos hf, hic]
    · rintro ⟨j, hj, hH1⟩
      rw [hlen1, Nat.lt_succ_iff_lt_or_eq] at hj
      rcases hj with hj | hj
      · exact htitle ⟨j, hj, hH1⟩
      · subst hj
        rw [hH1i] at hH1
        rw [hH1.1] at hf
        cases hf
    · intro j hj hH2 hnk
      rw [hlen1, Nat.lt_succ_iff_lt_or_eq] at hj
      rcases hj with hj | hj
      · exact hsec j hj hH2 (fun k hk1 hk2 => hnk k hk1 (by omega))
      · subst hj
        rw [hH2i] at hH2
        rw [hH2.1] at hf
        cases hf
  · have hf0 : isFenceLine l = false := Bool.not_eq_true _ ▸ Bool.eq_false_iff.mpr hf
    have hf' : startsWithStr (trimStr l) "```" = false := hf0
    have hparity : codeParity (pre ++ [l]) = codeParity pre := by
      rw [codeParity_append_singleton, if_neg (by rw [hf0]; exact Bool.false_ne_true)]
    simp only [hf', Bool.false_eq_true, if_false]
    by_cases hcode : st.inCode = true
    · -- inside a code block: plain append
      simp only [hcode, if_true]
      refine ⟨?_, hctx, hsecs, ?_, ?_⟩
      · dsimp only; rw [hparity, ← hic, hcode]
      · rintro ⟨j, hj, hH1⟩
        rw [hlen1, Nat.lt_succ_iff_lt_or_eq] at hj
        rcases hj with hj | hj
        · exact htitle ⟨j, hj, hH1⟩
        · subst hj
          rw [hH1i] at hH1
          rw [← hic, hcode] at hH1
          cases hH1.2.1
      · intro j hj hH2 hnk
        rw [hlen1, Nat.lt_succ_iff_lt_or_eq] at hj
        rcases hj with hj | hj
        · exact hsec j hj hH2 (fun k hk1 hk2 => hnk k hk1 (by omega))
        · subst hj
          rw [hH2i] at hH2
          rw [← hic, hcode] at hH2
          cases hH2.2.1
    · have hcode0 : st.inCode = false := Bool.not_eq_true _ ▸ Bool.eq_false_iff.mpr hcode
      have hpre0 : codeParity pre = false := by rw [← hic, hcode0]
      simp only [hcode0, Bool.false_eq_true, if_false]
      by_cases h1 : hdr1 l = true
      · -- effective H1: reset section and subsection, set the title
        have h1' : (startsWithStr (trimStr l) "# "
            && !(startsWithStr (trimStr l) "##")) = true := h1
        simp only [h1', if_true]
        have heffH1 : effH1 ls pre.length := hH1i.mpr ⟨hf0, hpre0, h1⟩
        refine ⟨?_, ?_, ?_, ?_, ?_⟩
        · dsimp only; rw [hparity, hpre0]
        · intro h; cases h
        · exact mem_push_sections _ _ _ hsecs hctx
        · intro _; rfl
        · intro j hj hH2 hnk
          rw [hlen1, Nat.lt_succ_iff_lt_or_eq] at hj
          rcases hj with hj | hj
          · exact absurd heffH1 (hnk pre.length hj (by omega))
          · subst hj
            rw [hH2i] at hH2
            rw [hH2.2.2.1] at h1
            cases h1
      · have h10 : hdr1 l = false := Bool.not_eq_true _ ▸ Bool.eq_false_iff.mpr h1
        have h1' : (startsWithStr (trimStr l) "# "
            && !(startsWithStr (trimStr l) "##")) = false := h10
        simp only [h1', Bool.false_eq_true, if_false]
        by_cases h2 : hdr2 l = true
        · -- effective H2: set the section, reset the subsection
          have h2' : (startsWithStr (trimStr l) "## "
              && !(startsWithStr (trimStr l) "###")) = true := h2
          simp only [h2', if_true]
          refine ⟨?_, ?_, ?_, ?_, ?_⟩
          · dsimp only; rw [hparity, hpre0]
          · intro h; cases h
          · exact mem_push_sections _ _ _ hsecs hctx
          · rintro ⟨j, hj, hH1⟩
            rw [hlen1, Nat.lt_succ_iff_lt_or_eq] at hj
            rcases hj with hj | hj
            · exact htitle ⟨j, hj, hH1⟩
            · subst hj
              rw [hH1i] at hH1
              rw [hH1.2.2] at h10
              cases h10
          · intro _ _ _ _; rfl
        · have h20 : hdr2 l = false := Bool.not_eq_true _ ▸ Bool.eq_false_iff.mpr h2
          have h2' : (startsWithStr (trimStr l) "## "
              && !(startsWithStr (trimStr l) "###")) = false := h20
          simp only [h2', Bool.false_eq_true, if_false]
          by_cases h3 : hdr3 l = true
          · -- effective H3: set the subsection; GoodHeadings provides the
            -- preceding title and section
            have h3' : startsWithStr (trimStr l) "### " = true := h3
            simp only [h3', if_true]
            have heffH3 : effH3 ls pre.length := hH3i.mpr ⟨hf0, hpre0, h10, h20, h3⟩
            obtain ⟨⟨j1, hj1, hH1j⟩, ⟨j2, hj2, hH2j, hnoH1⟩⟩ := hgood pre.length heffH3
            have htitleSome : st.ctx.title.isSome := htitle ⟨j1, hj1, hH1j⟩
            have hsecSome : st.ctx.«section».isSome :=
              hsec j2 hj2 hH2j (fun k hk1 hk2 => hnoH1 k hk1 hk2)
            refine ⟨?_, ?_, ?_, ?_, ?_⟩
            · dsimp only; rw [hparity, hpre0]
            · intro _; exact ⟨htitleSome, hsecSome⟩
            · exact mem_push_sections _ _ _ hsecs hctx
            · intro _; exact htitleSome
            · intro _ _ _ _; exact hsecSome
          · have h3' : startsWithStr (trimStr l) "### " = false :=
              Bool.not_eq_true _ ▸ Bool.eq_false_iff.mpr h3
            have h30 : hdr3 l = false := h3'
            simp only [h3', Bool.false_eq_true, if_false]
            -- regular content line
            refine ⟨?_, hctx, hsecs, ?_, ?_⟩
            · dsimp only; rw [hparity, hpre0]
            · rintro ⟨j, hj, hH1⟩
              rw [hlen1, Nat.lt_succ_iff_lt_or_eq] at hj
              rcases hj with hj | hj
              · exact htitle ⟨j, hj, hH1⟩
              · subst hj
                rw [hH1i] at hH1
                rw [hH1.2.2] at h10
                cases h10
            · intro j hj hH2 hnk
              rw [hlen1, Nat.lt_succ_iff_lt_or_eq] at hj
              rcases hj with hj | hj
              · exact hsec j hj hH2 (fun k hk1 hk2 => hnk k hk1 (by omega))
              · subst hj
                rw [hH2i] at hH2
                rw [hH2.2.2.2] at h20
                cases h20

lemma sections_foldl_inv (ls : List String) (hgood : GoodHeadings ls) :
    ∀ (suf pre : List String), ls = pre ++ suf →
      ∀ st, SectionsInv ls pre st → SectionsInv ls (pre ++ suf) (suf.foldl sectionsStep st) := by
  intro suf
  induction suf with
  | nil =>
    intro pre h st hinv
    simpa using hinv
  | cons l rest ih =>
    intro pre hls st hinv
    rw [List.foldl_cons]
    have h1 : SectionsInv ls (pre ++ [l]) (sectionsStep st l) :=
      sectionsStep_inv ls pre rest l hls hgood st hinv
    have h2 := ih (pre ++ [l]) (by rw [hls]; simp) (sectionsStep st l) h1
    simpa [List.append_assoc] using h2

lemma split_into_sections_ctxOK (content : String)
    (hgood : GoodHeadings (rustLines content)) :
    ∀ sec ∈ split_into_sections content, ctxOK sec.ctx := by
  unfold split_into_sections
  dsimp only
  have hinv0 : SectionsInv (rustLines content) []
      { ctx := { title := prescanTitle (rustLines content) false } } := by
    refine ⟨rfl, ?_, ?_, ?_, ?_⟩
    · intro h; cases h
    · intro sec h; cases h
    · rintro ⟨j, hj, _⟩; simp at hj
    · intro j hj; simp at hj
  have hfin := sections_foldl_inv (rustLines content) hgood (rustLines content) [] rfl
    _ hinv0
  obtain ⟨_, hctx, hsecs, _, _⟩ := hfin
  intro sec hsec
  by_cases hp : (trimStr ((rustLines content).foldl sectionsStep
      { ctx := { title := prescanTitle (rustLines content) false } }).current).data.isEmpty = true
  · rw [if_pos hp] at hsec
    exact hsecs sec hsec
  · rw [if_neg hp] at hsec
    rcases List.mem_append.mp hsec with h | h
    · exact hsecs sec h
    · rw [List.mem_singleton.mp h]
      exact hctx

lemma sectionMeta_fields (md : DocMetadata) (ctx : SectionContext) (a b : Nat) (hc : Bool) :
    (sectionMeta md ctx a b hc).title = ctx.title
    ∧ (sectionMeta md ctx a b hc).«section» = ctx.«section»
    ∧ (sectionMeta md ctx a b hc).subsection = ctx.subsection := by
  rcases ctx with ⟨t, s, ss⟩
  cases t <;> cases s <;> cases ss <;>
    simp [sectionMeta, ChunkMetadata.new, ChunkMetadata.with_title, ChunkMetadata.with_section,
      ChunkMetadata.with_subsection, ChunkMetadata.with_lines, ChunkMetadata.with_code,
      SectionContext.to_hierarchy]

lemma metaOK_create_chunk (hash : String → String) (s : String) (m : ChunkMetadata) :
    metaOK (create_chunk hash s m).metadata ↔ metaOK m :=
  Iff.rfl

lemma metaOK_sectionMeta (md : DocMetadata) (ctx : SectionContext) (a b : Nat) (hc : Bool)
    (hctx : ctxOK ctx) : metaOK (sectionMeta md ctx a b hc) := by
  obtain ⟨ht, hs, hss⟩ := sectionMeta_fields md ctx a b hc
  intro h
  rw [hss] at h
  rw [ht, hs]
  exact hctx h

lemma largeStep_chunks_meta (hash : String → String) (ts : Nat) (md : DocMetadata)
    (ctx : SectionContext) (st : LargeSplitState) (l : String) :
    ∀ c ∈ (largeStep hash ts md ctx st l).chunks,
      c ∈ st.chunks ∨ ∃ s a b hcf, c = create_chunk hash s (sectionMeta md ctx a b hcf) := by
  unfold largeStep
  dsimp only
  split <;>
  · split
    next =>
      intro c hc
      rcases List.mem_append.mp hc with h | h
      · exact Or.inl h
      · exact Or.inr ⟨_, _, _, _, List.mem_singleton.mp h⟩
    next =>
      intro c hc
      exact Or.inl hc

lemma foldl_largeStep_meta (hash : String → String) (ts : Nat) (md : DocMetadata)
    (ctx : SectionContext) (hctx : ctxOK ctx) (lines : List String) (st : LargeSplitState)
    (h : ∀ c ∈ st.chunks, metaOK c.metadata) :
    ∀ c ∈ (lines.foldl (largeStep hash ts md ctx) st).chunks, metaOK c.metadata := by
  induction lines generalizing st with
  | nil => exact h
  | cons l rest ih =>
    rw [List.foldl_cons]
    apply ih
    intro c hc
    rcases largeStep_chunks_meta hash ts md ctx st l c hc with hmem | ⟨s, a, b, hcf, heq⟩
    · exact h c hmem
    · rw [heq, metaOK_create_chunk]
      exact metaOK_sectionMeta md ctx a b hcf hctx

lemma split_large_section_meta (hash : String → String) (ts : Nat) (ctx : SectionContext)
    (hctx : ctxOK ctx) (content : String) (sl : Nat) (md : DocMetadata) :
    ∀ c ∈ split_large_section hash ts ctx content sl md, metaOK c.metadata := by
  unfold split_large_section
  dsimp only
  split
  next =>
    intro c hc
    rcases List.mem_append.mp hc with h | h
    · exact foldl_largeStep_meta hash ts md ctx hctx _ _ (by intro c hc; cases hc) c h
    · rw [List.mem_singleton.mp h, metaOK_create_chunk]
      exact metaOK_sectionMeta md ctx _ _ _ hctx
  next =>
    exact foldl_largeStep_meta hash ts md ctx hctx _ _ (by intro c hc; cases hc)

lemma sectionPassChunks_meta (hash : String → String) (ts : Nat) (content : String)
    (md : DocMetadata) (hgood : GoodHeadings (rustLines content)) :
    ∀ c ∈ sectionPassChunks hash ts content md, metaOK c.metadata := by
  have hctxs := split_into_sections_ctxOK content hgood
  unfold sectionPassChunks
  have main : ∀ (secs : List MdSection), (∀ sec ∈ secs, ctxOK sec.ctx) →
      ∀ (acc : List Chunk), (∀ c ∈ acc, metaOK c.metadata) →
      ∀ c ∈ secs.foldl (fun acc sec =>
        if strByteLen sec.content ≤ ts then
          if MIN_CHUNK ≤ strByteLen sec.content then
            acc ++ [create_chunk hash sec.content
              (sectionMeta md sec.ctx sec.startLine sec.endLine
                (has_code_blocks sec.content))]
          else acc
        else acc ++ split_large_section hash ts sec.ctx sec.content sec.startLine md) acc,
      metaOK c.metadata := by
    intro secs
    induction secs with
    | nil => intro _ acc h; exact h
    | cons sec rest ih =>
      intro hsecs acc h
      rw [List.foldl_cons]
      have hsec : ctxOK sec.ctx := hsecs sec (List.mem_cons_self _ _)
      apply ih (fun s hs => hsecs s (List.mem_cons_of_mem _ hs))
      by_cases h1 : strByteLen sec.content ≤ ts
      · by_cases h2 : MIN_CHUNK ≤ strByteLen sec.content
        · rw [if_pos h1, if_pos h2]
          intro c hc
          rcases List.mem_append.mp hc with ha | hb
          · exact h c ha
          · rw [List.mem_singleton.mp hb, metaOK_create_chunk]
            exact metaOK_sectionMeta md sec.ctx _ _ _ hsec
        · rw [if_pos h1, if_neg h2]; exact h
      · rw [if_neg h1]
        intro c hc
        rcases List.mem_append.mp hc with ha | hb
        · exact h c ha
        · exact split_large_section_meta hash ts sec.ctx hsec sec.content sec.startLine md c hb
  exact main _ hctxs [] (by intro c hc; cases hc)

/-- **C7 (amended).** For every markdown document with well-nested headings —
each effective H3 (an H3 heading reached outside code fences) is preceded by
an effective H1, and by an effective H2 with no effective H1 in between —
every chunk whose `subsection` is present also has `title` and `section`
present.  (Without the nesting hypothesis the property fails; see the
counterexample.) -/
theorem markdown_hierarchy_consistency (hash : String → String) (ts : Nat)
    (content : String) (md : DocMetadata)
    (hgood : GoodHeadings (rustLines content)) :
    ∀ c ∈ markdownChunk hash ts content md,
      c.metadata.subsection.isSome →
        c.metadata.title.isSome ∧ c.metadata.«section».isSome := by
  intro c hc
  unfold markdownChunk at hc
  by_cases hblank : (trimStr content).data.isEmpty = true
  · rw [if_pos hblank] at hc; cases hc
  · rw [if_neg hblank] at hc
    dsimp only at hc
    by_cases hcond : ((sectionPassChunks hash ts content md).isEmpty
        && decide (MIN_CHUNK ≤ strByteLen content)) = true
    · rw [if_pos hcond] at hc
      rw [List.mem_singleton.mp hc]
      intro h
      cases h
    · rw [if_neg hcond] at hc
      exact sectionPassChunks_meta hash ts content md hgood c hc

instance (ls : List String) (i : Nat) : Decidable (effH1 ls i) := by
  unfold effH1; infer_instance

instance (ls : List String) (i : Nat) : Decidable (effH2 ls i) := by
  unfold effH2; infer_instance

instance (ls : List String) (i : Nat) : Decidable (effH3 ls i) := by
  unfold effH3; infer_instance

/-- A markdown document with heading order H1, H2, H3. -/
def docNested : String := "# T\n## S\n### U\n" ++ String.mk (List.replicate 100 'a')

lemma docNested_good : GoodHeadings (rustLines docNested) := by
  intro i hi
  have hlen : (rustLines docNested).length = 4 := by decide
  have hlt : i < 4 := by rw [← hlen]; exact hi.1
  interval_cases i
  · exact absurd hi (by decide)
  · exact absurd hi (by decide)
  · exact ⟨⟨0, by omega, by decide⟩,
      ⟨1, by omega, by decide, by intro k h1 h2; omega⟩⟩
  · exact absurd hi (by decide)

/-- **C7 witness**: on a document with heading order H1, H2, H3, the
nesting hypothesis holds, and the chunker emits only hierarchy-consistent
chunks. -/
theorem markdown_hierarchy_consistency_witness :
    GoodHeadings (rustLines docNested)
    ∧ ∀ c ∈ markdownChunk (fun _ => "") TARGET_SIZE docNested mdMeta,
        c.metadata.subsection.isSome →
          c.metadata.title.isSome ∧ c.metadata.«section».isSome :=
  ⟨docNested_good,
    markdown_hierarchy_consistency (fun _ => "") TARGET_SIZE docNested mdMeta docNested_good⟩

/-! ## Code-block integrity of the markdown chunker -/

/-- The backtick character (obtained from a string literal). -/
def tickChar : Char := "`".data.headD 'a'

lemma pat_eq : "```".data = [tickChar, tickChar, tickChar] := rfl

lemma tick_ne_nl : tickChar ≠ nlChar := by decide

lemma tick_ne_cr : tickChar ≠ crChar := by decide

/-- `countTicksAux` with a pending skip just drops that many characters. -/
lemma countTicksAux_skip (l : List Char) : ∀ k, countTicksAux l k = countTicksAux (l.drop k) 0 := by
  induction l with
  | nil => intro k; cases k <;> rfl
  | cons c rest ih =>
    intro k
    cases k with
    | zero => rfl
    | succ k => exact (ih k).trans (by rw [List.drop_succ_cons])

/-- Abbreviation: the tick count of a character list. -/
def cnt (l : List Char) : Nat := countTicksAux l 0

lemma cnt_nil : cnt [] = 0 := rfl

lemma cnt_cons (c : Char) (rest : List Char) :
    cnt (c :: rest) = if "```".data.isPrefixOf (c :: rest) then 1 + cnt (rest.drop 2)
      else cnt rest := by
  show countTicksAux (c :: rest) 0 = _
  unfold countTicksAux
  by_cases h : "```".data.isPrefixOf (c :: rest)
  · rw [if_pos h, if_pos h, countTicksAux_skip rest 2]; rfl
  · rw [if_neg h, if_neg h]; rfl

lemma pat_prefix_iff (l : List Char) :
    "```".data.isPrefixOf l = true ↔ ∃ rest, l = tickChar :: tickChar :: tickChar :: rest := by
  rw [List.isPrefixOf_iff_prefix]
  constructor
  · rintro ⟨r, hr⟩
    exact ⟨r, by rw [← hr, pat_eq]; rfl⟩
  · rintro ⟨rest, rfl⟩
    exact ⟨rest, by rw [pat_eq]; rfl⟩

lemma pat_prefix_extend (a b : List Char) (h : "```".data.isPrefixOf a = true) :
    "```".data.isPrefixOf (a ++ b) = true := by
  obtain ⟨rest, rfl⟩ := (pat_prefix_iff a).mp h
  exact (pat_prefix_iff _).mpr ⟨rest ++ b, rfl⟩

lemma getLast?_cons_of_ne_nil {α : Type} (c : α) (l : List α) (h : l ≠ []) :
    (c :: l).getLast? = l.getLast? := by
  cases l with
  | nil => exact absurd rfl h
  | cons x xs => exact List.getLast?_cons_cons

/-- Counting ticks distributes over an append whose left part ends with a
newline (the pattern contains no newline, so no occurrence can span the
boundary). -/
lemma cnt_append_endNl : ∀ (n : Nat) (a b : List Char), a.length ≤ n →
    (a = [] ∨ a.getLast? = some nlChar) → cnt (a ++ b) = cnt a + cnt b := by
  intro n
  induction n with
  | zero =>
    intro a b hlen _
    have : a = [] := List.length_eq_zero.mp (Nat.le_zero.mp hlen)
    subst this
    simp [cnt_nil]
  | succ n ih =>
    intro a b hlen hend
    rcases hend with rfl | hlast
    · simp [cnt_nil]
    · rcases a with _ | ⟨c, a'⟩
      · simp [cnt_nil]
      · by_cases hpre : "```".data.isPrefixOf ((c :: a') ++ b) = true
        · obtain ⟨rest, hshape⟩ := (pat_prefix_iff _).mp hpre
          rcases a' with _ | ⟨c2, a''⟩
          · -- a = [c] and c = nl, but the pattern starts with a backtick
            have hc : c = nlChar := by
              simpa using hlast
            have hct : c = tickChar := by
              have := congrArg (fun l => l.headD 'z') hshape
              simpa using this
            exact absurd (hct.symm.trans hc) tick_ne_nl
          · rcases a'' with _ | ⟨c3, rest'⟩
            · -- a = [c, c2] with c2 = nl
              have hc2 : c2 = nlChar := by simpa using hlast
              have hct : c2 = tickChar := by
                have := congrArg (fun l => l.tail.headD 'z') hshape
                simpa using this
              exact absurd (hct.symm.trans hc2) tick_ne_nl
            · -- a = c :: c2 :: c3 :: rest' with at least three characters
              have hshape' : c :: c2 :: c3 :: (rest' ++ b)
                  = tickChar :: tickChar :: tickChar :: rest := by
                simpa using hshape
              obtain ⟨hc, hc2, hc3, _⟩ :
                  c = tickChar ∧ c2 = tickChar ∧ c3 = tickChar ∧ rest' ++ b = rest := by
                injection hshape' with h1 h2
                injection h2 with h2 h3
                injection h3 with h3 h4
                exact ⟨h1, h2, h3, h4⟩
              have hpre2 : "```".data.isPrefixOf (c :: c2 :: c3 :: (rest' ++ b)) = true := by
                simpa using hpre
              have hprea : "```".data.isPrefixOf (c :: c2 :: c3 :: rest') = true :=
                (pat_prefix_iff _).mpr ⟨rest', by rw [hc, hc2, hc3]⟩
              have hrest' : rest' ≠ [] := by
                rintro rfl
                have : c3 = nlChar := by simpa using hlast
                exact tick_ne_nl (hc3 ▸ this)
              have hlast' : rest'.getLast? = some nlChar := by
                rw [← getLast?_cons_of_ne_nil c3 rest' hrest']
                rw [← getLast?_cons_of_ne_nil c2 _ (by simp)]
                rw [← getLast?_cons_of_ne_nil c _ (by simp)]
                exact hlast
              have hlen' : rest'.length ≤ n := by
                simp only [List.length_cons] at hlen
                omega
              have hih := ih rest' b hlen' (Or.inr hlast')
              simp only [List.cons_append]
              rw [cnt_cons, if_pos hpre2, cnt_cons, if_pos hprea]
              simp only [List.drop_succ_cons, List.drop_zero]
              rw [hih]
              omega
        · have hprea : ¬ "```".data.isPrefixOf (c :: a') = true := by
            intro hcon
            exact hpre (pat_prefix_extend (c :: a') b hcon)
          simp only [List.cons_append] at hpre ⊢
          rw [cnt_cons, if_neg hpre, cnt_cons, if_neg hprea]
          rcases a' with _ | ⟨c2, a''⟩
          · simp [cnt_nil]
          · have hlast2 : (c2 :: a'').getLast? = some nlChar := by
              rw [← getLast?_cons_of_ne_nil c _ (by simp)]
              exact hlast
            exact ih (c2 :: a'') b (by simp only [List.length_cons] at hlen ⊢; omega)
              (Or.inr hlast2)

/-- Appending a single newline does not change the tick count. -/
lemma cnt_append_nl : ∀ (n : Nat) (a : List Char), a.length ≤ n →
    cnt (a ++ [nlChar]) = cnt a := by
  have hnp : ¬ "```".data.isPrefixOf [nlChar] = true := by
    intro hcon
    obtain ⟨rest, hr⟩ := (pat_prefix_iff _).mp hcon
    cases hr
  intro n
  induction n with
  | zero =>
    intro a hlen
    have : a = [] := List.length_eq_zero.mp (Nat.le_zero.mp hlen)
    subst this
    rw [List.nil_append, cnt_cons, if_neg hnp]
  | succ n ih =>
    intro a hlen
    rcases a with _ | ⟨c, a'⟩
    · rw [List.nil_append, cnt_cons, if_neg hnp]
    · by_cases hpre : "```".data.isPrefixOf ((c :: a') ++ [nlChar]) = true
      · obtain ⟨rest, hshape⟩ := (pat_prefix_iff _).mp hpre
        rcases a' with _ | ⟨c2, a''⟩
        · -- [c, nl] cannot start with three backticks
          have : ([c] ++ [nlChar]).length = 2 := rfl
          rw [hshape] at this
          simp at this
        · rcases a'' with _ | ⟨c3, rest'⟩
          · -- [c, c2, nl] = [t, t, t] forces nl = t
            have hshape' : c :: c2 :: nlChar :: ([] : List Char)
                = tickChar :: tickChar :: tickChar :: rest := by
              simpa using hshape
            have : nlChar = tickChar := by
              have := congrArg (fun l => l.tail.tail.headD 'z') hshape'
              simpa using this
            exact absurd this.symm tick_ne_nl
          · have hshape' : c :: c2 :: c3 :: (rest' ++ [nlChar])
                = tickChar :: tickChar :: tickChar :: rest := by
              simpa using hshape
            obtain ⟨hc, hc2, hc3, _⟩ :
                c = tickChar ∧ c2 = tickChar ∧ c3 = tickChar ∧ rest' ++ [nlChar] = rest := by
              injection hshape' with h1 h2
              injection h2 with h2 h3
              injection h3 with h3 h4
              exact ⟨h1, h2, h3, h4⟩
            have hpre2 : "```".data.isPrefixOf (c :: c2 :: c3 :: (rest' ++ [nlChar]))
                = true := by simpa using hpre
            have hprea : "```".data.isPrefixOf (c :: c2 :: c3 :: rest') = true :=
              (pat_prefix_iff _).mpr ⟨rest', by rw [hc, hc2, hc3]⟩
            have hih := ih rest' (by simp only [List.length_cons] at hlen; omega)
            simp only [List.cons_append]
            rw [cnt_cons, if_pos hpre2, cnt_cons, if_pos hprea]
            simp only [List.drop_succ_cons, List.drop_zero]
            rw [hih]
      · have hprea : ¬ "```".data.isPrefixOf (c :: a') = true := by
          intro hcon
          exact hpre (pat_prefix_extend (c :: a') [nlChar] hcon)
        simp only [List.cons_append] at hpre ⊢
        rw [cnt_cons, if_neg hpre, cnt_cons, if_neg hprea]
        exact ih a' (by simp only [List.length_cons] at hlen; omega)

/-- The string a running markdown chunk represents: each line followed by a
newline. -/
def lineJoin : List String → String
  | [] => ""
  | l :: rest => (l ++ "\n") ++ lineJoin rest

lemma string_data_append (a b : String) : (a ++ b).data = a.data ++ b.data := rfl

lemma string_append_assoc (a b c : String) : a ++ b ++ c = a ++ (b ++ c) := by
  rcases a with ⟨da⟩
  rcases b with ⟨db⟩
  rcases c with ⟨dc⟩
  show String.mk ((da ++ db) ++ dc) = String.mk (da ++ (db ++ dc))
  rw [List.append_assoc]

lemma string_append_empty (a : String) : a ++ "" = a := by
  rcases a with ⟨da⟩
  show String.mk (da ++ []) = String.mk da
  rw [List.append_nil]

lemma lineJoin_append_singleton (cs : List String) (l : String) :
    lineJoin (cs ++ [l]) = lineJoin cs ++ (l ++ "\n") := by
  induction cs with
  | nil =>
    show (l ++ "\n") ++ "" = "" ++ (l ++ "\n")
    rw [string_append_empty]
    rcases l with ⟨dl⟩
    show String.mk _ = String.mk _
    rw [List.nil_append]
  | cons c rest ih =>
    show (c ++ "\n") ++ lineJoin (rest ++ [l]) = ((c ++ "\n") ++ lineJoin rest) ++ (l ++ "\n")
    rw [ih, ← string_append_assoc]

/-- The tick count of a joined line list is the sum of the per-line tick
counts: occurrences cannot span the newline separators. -/
lemma cnt_lineJoin : ∀ cs : List String,
    cnt (lineJoin cs).data = (cs.map (fun l => cnt l.data)).sum := by
  intro cs
  induction cs with
  | nil => rfl
  | cons l rest ih =>
    show cnt ((l ++ "\n") ++ lineJoin rest).data = _
    rw [string_data_append, string_data_append]
    have hsep : ("\n" : String).data = [nlChar] := rfl
    rw [hsep, List.append_assoc]
    have h1 : cnt ((l.data ++ [nlChar]) ++ (lineJoin rest).data)
        = cnt (l.data ++ [nlChar]) + cnt (lineJoin rest).data :=
      cnt_append_endNl (l.data ++ [nlChar]).length _ _ (le_refl _)
        (Or.inr (by rw [List.getLast?_concat]))
    rw [← List.append_assoc, h1, cnt_append_nl l.data.length l.data (le_refl _), ih]
    rfl

/-- A line is *well fenced* when its tick count is one if it is a fence line
and zero otherwise. -/
def goodLine (l : String) : Prop := cnt l.data = (if isFenceLine l then 1 else 0)

lemma sum_goodLine (cs : List String) (h : ∀ l ∈ cs, goodLine l) :
    (cs.map (fun l => cnt l.data)).sum = cs.countP isFenceLine := by
  induction cs with
  | nil => rfl
  | cons l rest ih =>
    rw [List.map_cons, List.sum_cons, List.countP_cons,
      ih (fun x hx => h x (List.mem_cons_of_mem _ hx)),
      h l (List.mem_cons_self _ _)]
    exact Nat.add_comm _ _

lemma codeParity_foldl_eq (cs : List String) : ∀ b : Bool,
    cs.foldl (fun b l => if isFenceLine l then !b else b) b
      = ((cs.countP isFenceLine % 2 == 1) != b) := by
  induction cs with
  | nil => intro b; simp
  | cons l rest ih =>
    intro b
    rw [List.foldl_cons, List.countP_cons]
    by_cases hf : isFenceLine l = true
    · rw [if_pos hf, hf, ih (!b)]
      simp only [if_pos rfl, if_true]
      rcases Nat.mod_two_eq_zero_or_one (rest.countP isFenceLine) with h2 | h2
      · have ha : (rest.countP isFenceLine % 2 == 1) = false := by rw [h2]; rfl
        have hb1 : ((rest.countP isFenceLine + 1) % 2 == 1) = true := by
          rw [Nat.add_mod, h2]; rfl
        rw [ha, hb1]
        cases b <;> rfl
      · have ha : (rest.countP isFenceLine % 2 == 1) = true := by rw [h2]; rfl
        have hb1 : ((rest.countP isFenceLine + 1) % 2 == 1) = false := by
          rw [Nat.add_mod, h2]; rfl
        rw [ha, hb1]
        cases b <;> rfl
    · have hf0 : isFenceLine l = false := Bool.eq_false_iff.mpr hf
      rw [if_neg hf, hf0, ih b]
      simp

lemma codeParity_eq_countP (cs : List String) :
    codeParity cs = (cs.countP isFenceLine % 2 == 1) := by
  unfold codeParity
  rw [codeParity_foldl_eq cs false]
  simp

lemma even_countP_of_codeParity (cs : List String) (h : codeParity cs = false) :
    Even (cs.countP isFenceLine) := by
  rw [codeParity_eq_countP] at h
  rw [Nat.even_iff]
  rcases Nat.mod_two_eq_zero_or_one (cs.countP isFenceLine) with h2 | h2
  · exact h2
  · rw [h2] at h
    cases h

/-- If a chunk is a join of well-fenced lines with even fence parity, its
tick count is even. -/
lemma even_cnt_of_rep (content : String) (cs : List String)
    (hrep : content = lineJoin cs) (hgood : ∀ l ∈ cs, goodLine l)
    (hpar : codeParity cs = false) : Even (cnt content.data) := by
  rw [hrep, cnt_lineJoin, sum_goodLine cs hgood]
  exact even_countP_of_codeParity cs hpar

lemma string_mk_data (s : String) : String.mk s.data = s := rfl

lemma mem_of_getLast?_local {α : Type} : ∀ (l : List α) (a : α), l.getLast? = some a → a ∈ l := by
  intro l
  induction l with
  | nil => intro a h; cases h
  | cons x xs ih =>
    intro a h
    rcases xs with _ | ⟨y, ys⟩
    · rw [show ([x] : List α).getLast? = some x from rfl] at h
      injection h with h
      rw [h]
      exact List.mem_singleton_self a
    · rw [List.getLast?_cons_cons] at h
      exact List.mem_cons_of_mem _ (ih a h)

lemma mem_stripCR (l : List Char) (c : Char) (h : c ∈ stripCR l) : c ∈ l := by
  unfold stripCR at h
  cases hl : l.getLast? with
  | none => rw [hl] at h; exact h
  | some x =>
    rw [hl] at h
    have h' : c ∈ if x = crChar then l.dropLast else l := h
    by_cases hx : x = crChar
    · rw [if_pos hx] at h'
      exact List.mem_of_mem_dropLast h'
    · rw [if_neg hx] at h'
      exact h'

lemma stripCR_no_cr (l : List Char) (h : crChar ∉ l) : stripCR l = l := by
  unfold stripCR
  cases hl : l.getLast? with
  | none => rfl
  | some x =>
    have hx : x ∈ l := mem_of_getLast?_local l x hl
    show (if x = crChar then l.dropLast else l) = l
    rw [if_neg]
    intro he
    rw [he] at hx
    exact h hx

/-- Feeding `x ++ '\n' :: t` to the line splitter closes the line
`acc.reverse ++ x` when `x` holds no newline. -/
lemma linesListAux_append_nl : ∀ (x acc t : List Char), nlChar ∉ x →
    linesListAux (x ++ nlChar :: t) acc
      = stripCR (acc.reverse ++ x) :: linesListAux t [] := by
  intro x
  induction x with
  | nil =>
    intro acc t _
    rw [List.nil_append, List.append_nil]
    simp only [linesListAux]
    rw [if_pos trivial]
  | cons c x' ih =>
    intro acc t hnl
    have hc : ¬ c = nlChar := fun h => hnl (h ▸ List.mem_cons_self c x')
    rw [List.cons_append]
    simp only [linesListAux]
    rw [if_neg hc, ih (c :: acc) t (fun h => hnl (List.mem_cons_of_mem _ h))]
    rw [List.reverse_cons, List.append_assoc, List.singleton_append]

/-- Splitting a newline-join back into lines recovers the lines, when each
line holds no newline and no carriage return. -/
lemma rustLines_lineJoin : ∀ cs : List String,
    (∀ l ∈ cs, nlChar ∉ l.data ∧ crChar ∉ l.data) → rustLines (lineJoin cs) = cs := by
  intro cs
  induction cs with
  | nil => intro _; rfl
  | cons c rest ih =>
    intro h
    obtain ⟨hnl, hcr⟩ := h c (List.mem_cons_self _ _)
    unfold rustLines
    have hdata : (lineJoin (c :: rest)).data
        = c.data ++ nlChar :: (lineJoin rest).data := by
      show ((c ++ "\n") ++ lineJoin rest).data = _
      rw [string_data_append, string_data_append, List.append_assoc]
      rfl
    rw [hdata, linesListAux_append_nl c.data [] (lineJoin rest).data hnl]
    rw [List.reverse_nil, List.nil_append, stripCR_no_cr c.data hcr]
    rw [List.map_cons, string_mk_data]
    have hrest := ih (fun l hl => h l (List.mem_cons_of_mem _ hl))
    unfold rustLines at hrest
    rw [hrest]

/-- Joining the split lines back reproduces the document, up to one optional
trailing newline, when the document holds no carriage return. -/
lemma lineJoin_rustLines_data : ∀ (s acc : List Char), crChar ∉ s → crChar ∉ acc →
    (lineJoin ((linesListAux s acc).map String.mk)).data = acc.reverse ++ s
    ∨ (lineJoin ((linesListAux s acc).map String.mk)).data
        = (acc.reverse ++ s) ++ [nlChar] := by
  intro s
  induction s with
  | nil =>
    intro acc _ hacc
    rcases acc with _ | ⟨a, as⟩
    · left; rfl
    · right
      have h1 : linesListAux [] (a :: as) = [(a :: as).reverse] := rfl
      rw [h1, List.map_cons, List.map_nil]
      show ((String.mk (a :: as).reverse ++ "\n") ++ "").data = _
      rw [string_append_empty, string_data_append, List.append_nil]
      rfl
  | cons c rest ih =>
    intro acc hs hacc
    have hrest : crChar ∉ rest := fun h => hs (List.mem_cons_of_mem _ h)
    by_cases hc : c = nlChar
    · subst hc
      have h1 : linesListAux (nlChar :: rest) acc
          = stripCR acc.reverse :: linesListAux rest [] := by
        simp only [linesListAux]
        rw [if_pos trivial]
      have hcrrev : crChar ∉ acc.reverse := fun h => hacc (List.mem_reverse.mp h)
      rw [h1, List.map_cons, stripCR_no_cr acc.reverse hcrrev]
      have hdata : (lineJoin (String.mk acc.reverse
            :: (linesListAux rest []).map String.mk)).data
          = acc.reverse ++ nlChar
              :: (lineJoin ((linesListAux rest []).map String.mk)).data := by
        show ((String.mk acc.reverse ++ "\n")
          ++ lineJoin ((linesListAux rest []).map String.mk)).data = _
        rw [string_data_append, string_data_append, List.append_assoc]
        rfl
      rw [hdata]
      rcases ih [] hrest (by intro h; cases h) with h2 | h2
      · rw [List.reverse_nil, List.nil_append] at h2
        left
        rw [h2]
      · rw [List.reverse_nil, List.nil_append] at h2
        right
        rw [h2]
        simp [List.append_assoc]
    · have h1 : linesListAux (c :: rest) acc = linesListAux rest (c :: acc) := by
        simp only [linesListAux]
        rw [if_neg hc]
      rw [h1]
      have hcacc : crChar ∉ (c :: acc) := by
        intro h
        rcases List.mem_cons.mp h with h | h
        · exact hs (List.mem_cons.mpr (Or.inl h))
        · exact hacc h
      rcases ih (c :: acc) hrest hcacc with h2 | h2
      · left
        rw [h2]
        simp [List.append_assoc]
      · right
        rw [h2]
        simp [List.append_assoc]

/-- The tick count of a document is the sum of the tick counts of its lines:
occurrences of the pattern cannot span a line break. -/
lemma cnt_content_lines (content : String) (hcr : crChar ∉ content.data) :
    cnt content.data = ((rustLines content).map (fun l => cnt l.data)).sum := by
  have h := lineJoin_rustLines_data content.data [] hcr (by intro h; cases h)
  rw [List.reverse_nil, List.nil_append] at h
  rw [← cnt_lineJoin]
  rcases h with h | h
  · have h' : (lineJoin (rustLines content)).data = content.data := h
    rw [h']
  · have h' : (lineJoin (rustLines content)).data = content.data ++ [nlChar] := h
    rw [h', cnt_append_nl content.data.length content.data (le_refl _)]

lemma linesListAux_no_nl : ∀ (s acc : List Char), nlChar ∉ acc →
    ∀ x ∈ linesListAux s acc, nlChar ∉ x := by
  intro s
  induction s with
  | nil =>
    intro acc hacc x hx
    rcases acc with _ | ⟨a, as⟩
    · cases hx
    · have h1 : linesListAux [] (a :: as) = [(a :: as).reverse] := rfl
      rw [h1] at hx
      rw [List.mem_singleton.mp hx]
      intro h
      exact hacc (List.mem_reverse.mp h)
  | cons c rest ih =>
    intro acc hacc x hx
    by_cases hc : c = nlChar
    · subst hc
      have h1 : linesListAux (nlChar :: rest) acc
          = stripCR acc.reverse :: linesListAux rest [] := by
        simp only [linesListAux]
        rw [if_pos trivial]
      rw [h1] at hx
      rcases List.mem_cons.mp hx with hx | hx
      · rw [hx]
        intro h
        exact hacc (List.mem_reverse.mp (mem_stripCR _ _ h))
      · exact ih [] (by intro h; cases h) x hx
    · have h1 : linesListAux (c :: rest) acc = linesListAux rest (c :: acc) := by
        simp only [linesListAux]
        rw [if_neg hc]
      rw [h1] at hx
      refine ih (c :: acc) ?_ x hx
      intro h
      rcases List.mem_cons.mp h with h | h
      · exact hc h.symm
      · exact hacc h

lemma linesListAux_chars : ∀ (s acc : List Char),
    ∀ x ∈ linesListAux s acc, ∀ ch ∈ x, ch ∈ s ∨ ch ∈ acc := by
  intro s
  induction s with
  | nil =>
    intro acc x hx ch hch
    rcases acc with _ | ⟨a, as⟩
    · cases hx
    · have h1 : linesListAux [] (a :: as) = [(a :: as).reverse] := rfl
      rw [h1] at hx
      rw [List.mem_singleton.mp hx] at hch
      exact Or.inr (List.mem_reverse.mp hch)
  | cons c rest ih =>
    intro acc x hx ch hch
    by_cases hc : c = nlChar
    · subst hc
      have h1 : linesListAux (nlChar :: rest) acc
          = stripCR acc.reverse :: linesListAux rest [] := by
        simp only [linesListAux]
        rw [if_pos trivial]
      rw [h1] at hx
      rcases List.mem_cons.mp hx with hx | hx
      · rw [hx] at hch
        exact Or.inr (List.mem_reverse.mp (mem_stripCR _ _ hch))
      · rcases ih [] x hx ch hch with h | h
        · exact Or.inl (List.mem_cons_of_mem _ h)
        · cases h
    · have h1 : linesListAux (c :: rest) acc = linesListAux rest (c :: acc) := by
        simp only [linesListAux]
        rw [if_neg hc]
      rw [h1] at hx
      rcases ih (c :: acc) x hx ch hch with h | h
      · exact Or.inl (List.mem_cons_of_mem _ h)
      · rcases List.mem_cons.mp h with h | h
        · exact Or.inl (List.mem_cons.mpr (Or.inl h))
        · exact Or.inr h

/-- Each split line holds no newline, and only characters of the
document. -/
lemma rustLines_line_chars (content : String) :
    ∀ l ∈ rustLines content, nlChar ∉ l.data ∧ (∀ ch ∈ l.data, ch ∈ content.data) := by
  intro l hl
  unfold rustLines at hl
  obtain ⟨x, hx, hlx⟩ := List.mem_map.mp hl
  constructor
  · rw [← hlx]
    exact linesListAux_no_nl content.data [] (by intro h; cases h) x hx
  · intro ch hch
    rw [← hlx] at hch
    rcases linesListAux_chars content.data [] x hx ch hch with h | h
    · exact h
    · cases h

/-- A string is a newline-join of document lines with the given fence
parity. -/
def LinesRep (lines : List String) (s : String) (b : Bool) : Prop :=
  ∃ ds, s = lineJoin ds ∧ (∀ l ∈ ds, l ∈ lines) ∧ codeParity ds = b

lemma linesRep_empty (lines : List String) : LinesRep lines "" false := by
  refine ⟨[], rfl, ?_, rfl⟩
  intro x hx
  cases hx

lemma linesRep_one (lines : List String) (l : String) (hl : l ∈ lines)
    (hf : isFenceLine l = false) : LinesRep lines (l ++ "\n") false := by
  refine ⟨[l], ?_, ?_, ?_⟩
  · rw [show lineJoin [l] = (l ++ "\n") ++ "" from rfl, string_append_empty]
  · intro x hx
    rw [List.mem_singleton.mp hx]
    exact hl
  · show (if isFenceLine l = true then !false else false) = false
    rw [if_neg (by rw [hf]; exact Bool.false_ne_true)]

lemma linesRep_append (lines : List String) (s : String) (b : Bool) (l : String)
    (hl : l ∈ lines) (h : LinesRep lines s b) :
    LinesRep lines (s ++ l ++ "\n") (if isFenceLine l then !b else b) := by
  obtain ⟨ds, hs, hmem, hpar⟩ := h
  refine ⟨ds ++ [l], ?_, ?_, ?_⟩
  · rw [hs, lineJoin_append_singleton, string_append_assoc]
  · intro x hx
    rcases List.mem_append.mp hx with h | h
    · exact hmem x h
    · rw [List.mem_singleton.mp h]
      exact hl
  · rw [codeParity_append_singleton, hpar]

lemma linesRep_append' (lines : List String) (s : String) (b : Bool) (l : String)
    (hl : l ∈ lines) (h : LinesRep lines s b) :
    LinesRep lines (s ++ (l ++ "\n")) (if isFenceLine l then !b else b) := by
  rw [← string_append_assoc]
  exact linesRep_append lines s b l hl h

/-- The fence-integrity invariant of the `split_into_sections` loop: every
closed section is a join of document lines with even fence parity, the
running section is a join whose parity is the code flag, and the code flag
is the parity of the processed prefix. -/
def SecFenceInv (lines pre : List String) (st : SplitSectionsState) : Prop :=
  (∀ sec ∈ st.sections, LinesRep lines sec.content false)
  ∧ LinesRep lines st.current st.inCode
  ∧ st.inCode = codeParity pre

lemma sectionsStep_rep (lines pre : List String) (l : String) (hl : l ∈ lines)
    (st : SplitSectionsState) (hinv : SecFenceInv lines pre st) :
    SecFenceInv lines (pre ++ [l]) (sectionsStep st l) := by
  obtain ⟨hsecs, hcur, hic⟩ := hinv
  unfold sectionsStep
  by_cases hf : isFenceLine l = true
  · have hf' : startsWithStr (trimStr l) "```" = true := hf
    simp only [hf', if_true]
    refine ⟨hsecs, ?_, ?_⟩
    · dsimp only
      have h := linesRep_append lines st.current st.inCode l hl hcur
      rw [if_pos hf] at h
      exact h
    · dsimp only
      rw [codeParity_append_singleton, if_pos hf, hic]
  · have hf0 : isFenceLine l = false := Bool.eq_false_iff.mpr hf
    have hf' : startsWithStr (trimStr l) "```" = false := hf0
    have hparity : codeParity (pre ++ [l]) = codeParity pre := by
      rw [codeParity_append_singleton, if_neg (by rw [hf0]; exact Bool.false_ne_true)]
    have happ : LinesRep lines (st.current ++ l ++ "\n") st.inCode := by
      have h := linesRep_append lines st.current st.inCode l hl hcur
      rw [if_neg (by rw [hf0]; exact Bool.false_ne_true)] at h
      exact h
    simp only [hf', Bool.false_eq_true, if_false]
    by_cases hcode : st.inCode = true
    · simp only [hcode, if_true]
      refine ⟨hsecs, ?_, ?_⟩
      · dsimp only
        obtain ⟨ds, hd1, hd2, hd3⟩ := happ
        exact ⟨ds, hd1, hd2, by rw [hd3, hcode]⟩
      · dsimp only
        rw [hparity, ← hic, hcode]
    · have hcode0 : st.inCode = false := Bool.eq_false_iff.mpr hcode
      have hcurF : LinesRep lines st.current false := by
        obtain ⟨ds, hd1, hd2, hd3⟩ := hcur
        exact ⟨ds, hd1, hd2, by rw [hd3, hcode0]⟩
      have hnewcurF : LinesRep lines (l ++ "\n") false := linesRep_one lines l hl hf0
      have hpar0 : (false : Bool) = codeParity (pre ++ [l]) := by
        rw [hparity, ← hic, hcode0]
      have happF : LinesRep lines (st.current ++ l ++ "\n") false := by
        obtain ⟨ds, hd1, hd2, hd3⟩ := happ
        exact ⟨ds, hd1, hd2, by rw [hd3, hcode0]⟩
      simp only [hcode0, Bool.false_eq_true, if_false]
      by_cases h1 : (startsWithStr (trimStr l) "# "
          && !(startsWithStr (trimStr l) "##")) = true
      · simp only [h1, if_true]
        exact ⟨mem_push_sections _ _ _ hsecs hcurF, hnewcurF, hpar0⟩
      · have h10 : (startsWithStr (trimStr l) "# "
            && !(startsWithStr (trimStr l) "##")) = false := Bool.eq_false_iff.mpr h1
        simp only [h10, Bool.false_eq_true, if_false]
        by_cases h2 : (startsWithStr (trimStr l) "## "
            && !(startsWithStr (trimStr l) "###")) = true
        · simp only [h2, if_true]
          exact ⟨mem_push_sections _ _ _ hsecs hcurF, hnewcurF, hpar0⟩
        · have h20 : (startsWithStr (trimStr l) "## "
              && !(startsWithStr (trimStr l) "###")) = false := Bool.eq_false_iff.mpr h2
          simp only [h20, Bool.false_eq_true, if_false]
          by_cases h3 : startsWithStr (trimStr l) "### " = true
          · simp only [h3, if_true]
            exact ⟨mem_push_sections _ _ _ hsecs hcurF, hnewcurF, hpar0⟩
          · have h30 : startsWithStr (trimStr l) "### " = false := Bool.eq_false_iff.mpr h3
            simp only [h30, Bool.false_eq_true, if_false]
            refine ⟨hsecs, ?_, ?_⟩
            · dsimp only
              exact happF
            · dsimp only
              rw [hparity, ← hic, hcode0]

lemma sections_fold_rep (lines : List String) :
    ∀ (suf pre : List String), (∀ l ∈ suf, l ∈ lines) →
      ∀ st, SecFenceInv lines pre st →
        SecFenceInv lines (pre ++ suf) (suf.foldl sectionsStep st) := by
  intro suf
  induction suf with
  | nil =>
    intro pre _ st h
    simpa using h
  | cons l rest ih =>
    intro pre hmem st hinv
    rw [List.foldl_cons]
    have h1 := sectionsStep_rep lines pre l (hmem l (List.mem_cons_self _ _)) st hinv
    have h2 := ih (pre ++ [l]) (fun x hx => hmem x (List.mem_cons_of_mem _ hx)) _ h1
    simpa [List.append_assoc] using h2

/-- Every section produced by `split_into_sections` is a newline-join of
document lines with even fence parity, when the document's own fence parity
is even. -/
lemma split_into_sections_rep (content : String)
    (hpar : codeParity (rustLines content) = false) :
    ∀ sec ∈ split_into_sections content,
      LinesRep (rustLines content) sec.content false := by
  unfold split_into_sections
  dsimp only
  have hinv0 : SecFenceInv (rustLines content) []
      { ctx := { title := prescanTitle (rustLines content) false } } := by
    refine ⟨?_, linesRep_empty _, rfl⟩
    intro sec h
    cases h
  have hfin := sections_fold_rep (rustLines content) (rustLines content) []
    (fun l hl => hl) _ hinv0
  rw [List.nil_append] at hfin
  obtain ⟨hsecs, hcur, hic⟩ := hfin
  intro sec hsec
  by_cases hp : (trimStr ((rustLines content).foldl sectionsStep
      { ctx := { title := prescanTitle (rustLines content) false } }).current).data.isEmpty
      = true
  · rw [if_pos hp] at hsec
    exact hsecs sec hsec
  · rw [if_neg hp] at hsec
    rcases List.mem_append.mp hsec with h | h
    · exact hsecs sec h
    · rw [List.mem_singleton.mp h]
      obtain ⟨ds, hd1, hd2, hd3⟩ := hcur
      exact ⟨ds, hd1, hd2, by rw [hd3, hic, hpar]⟩

/-- The fence-integrity invariant of the `split_large_section` loop. -/
def LargeFenceInv (lines pre : List String) (st : LargeSplitState) : Prop :=
  (∀ c ∈ st.chunks, LinesRep lines c.content false)
  ∧ LinesRep lines st.current st.inCode
  ∧ st.inCode = codeParity pre

lemma largeStep_rep (hash : String → String) (ts : Nat) (md : DocMetadata)
    (ctx : SectionContext) (lines pre : List String) (l : String) (hl : l ∈ lines)
    (st : LargeSplitState) (hinv : LargeFenceInv lines pre st) :
    LargeFenceInv lines (pre ++ [l]) (largeStep hash ts md ctx st l) := by
  obtain ⟨hchunks, hcur, hic⟩ := hinv
  unfold largeStep
  dsimp only
  by_cases hf : startsWithStr (trimStr l) "```" = true
  · have hf' : isFenceLine l = true := hf
    simp only [hf, eq_self_iff_true, if_true, Bool.not_true, Bool.and_false,
      Bool.false_and, Bool.false_eq_true, if_false]
    refine ⟨hchunks, ?_, ?_⟩
    · dsimp only
      have h := linesRep_append' lines st.current st.inCode l hl hcur
      rw [if_pos hf'] at h
      exact h
    · dsimp only
      rw [codeParity_append_singleton, if_pos hf', hic]
  · have hf0 : startsWithStr (trimStr l) "```" = false := Bool.eq_false_iff.mpr hf
    have hf0' : isFenceLine l = false := hf0
    have hnegfence : ¬ isFenceLine l = true := by
      rw [hf0']
      exact Bool.false_ne_true
    simp only [hf0, Bool.false_eq_true, if_false, Bool.not_false, Bool.and_true,
      Bool.true_and]
    by_cases hcode : st.inCode = true
    · simp only [hcode, Bool.not_true, Bool.false_and, Bool.false_eq_true, if_false]
      refine ⟨hchunks, ?_, ?_⟩
      · dsimp only
        have h := linesRep_append' lines st.current st.inCode l hl hcur
        rw [if_neg hnegfence] at h
        obtain ⟨ds, hd1, hd2, hd3⟩ := h
        exact ⟨ds, hd1, hd2, by rw [hd3, hcode]⟩
      · dsimp only
        rw [codeParity_append_singleton, if_neg hnegfence, ← hic, hcode]
    · have hcode0 : st.inCode = false := Bool.eq_false_iff.mpr hcode
      simp only [hcode0, Bool.not_false, Bool.true_and]
      by_cases hd : (decide (ts < strByteLen st.current + strByteLen (l ++ "\n"))
          && decide (MIN_CHUNK ≤ strByteLen st.current)) = true
      · rw [if_pos hd]
        refine ⟨?_, ?_, ?_⟩
        · intro c hc
          rcases List.mem_append.mp hc with h | h
          · exact hchunks c h
          · rw [List.mem_singleton.mp h, create_chunk_content]
            obtain ⟨ds, hd1, hd2, hd3⟩ := hcur
            exact ⟨ds, hd1, hd2, by rw [hd3, hcode0]⟩
        · dsimp only
          exact linesRep_one lines l hl hf0'
        · dsimp only
          rw [codeParity_append_singleton, if_neg hnegfence, ← hic, hcode0]
      · rw [if_neg hd]
        refine ⟨hchunks, ?_, ?_⟩
        · dsimp only
          have h := linesRep_append' lines st.current st.inCode l hl hcur
          rw [if_neg hnegfence] at h
          obtain ⟨ds, hd1, hd2, hd3⟩ := h
          exact ⟨ds, hd1, hd2, by rw [hd3, hcode0]⟩
        · dsimp only
          rw [codeParity_append_singleton, if_neg hnegfence, ← hic, hcode0]

lemma large_fold_rep (hash : String → String) (ts : Nat) (md : DocMetadata)
    (ctx : SectionContext) (lines : List String) :
    ∀ (suf pre : List String), (∀ l ∈ suf, l ∈ lines) →
      ∀ st, LargeFenceInv lines pre st →
        LargeFenceInv lines (pre ++ suf)
          (suf.foldl (largeStep hash ts md ctx) st) := by
  intro suf
  induction suf with
  | nil =>
    intro pre _ st h
    simpa using h
  | cons l rest ih =>
    intro pre hmem st hinv
    rw [List.foldl_cons]
    have h1 := largeStep_rep hash ts md ctx lines pre l
      (hmem l (List.mem_cons_self _ _)) st hinv
    have h2 := ih (pre ++ [l]) (fun x hx => hmem x (List.mem_cons_of_mem _ hx)) _ h1
    simpa [List.append_assoc] using h2

/-- Every chunk emitted by `split_large_section` is a newline-join of
document lines with even fence parity, when the section's lines are document
lines of even total parity. -/
lemma split_large_section_rep (hash : String → String) (ts : Nat) (ctx : SectionContext)
    (content : String) (sl : Nat) (md : DocMetadata) (lines : List String)
    (hmem : ∀ l ∈ rustLines content, l ∈ lines)
    (hpar : codeParity (rustLines content) = false) :
    ∀ c ∈ split_large_section hash ts ctx content sl md,
      LinesRep lines c.content false := by
  unfold split_large_section
  dsimp only
  have hinv0 : LargeFenceInv lines [] { chunkStart := sl, line := sl } := by
    refine ⟨?_, linesRep_empty _, rfl⟩
    intro c hc
    cases hc
  have hinv := large_fold_rep hash ts md ctx lines (rustLines content) [] hmem _ hinv0
  rw [List.nil_append] at hinv
  obtain ⟨hchunks, hcur, hic⟩ := hinv
  split
  next hmin =>
    intro c hc
    rcases List.mem_append.mp hc with h | h
    · exact hchunks c h
    · rw [List.mem_singleton.mp h, create_chunk_content]
      obtain ⟨ds, hd1, hd2, hd3⟩ := hcur
      exact ⟨ds, hd1, hd2, by rw [hd3, hic, hpar]⟩
  next =>
    exact hchunks

/-- Every chunk of the per-section pass is a newline-join of document lines
with even fence parity. -/
lemma sectionPassChunks_rep (hash : String → String) (ts : Nat) (content : String)
    (md : DocMetadata) (hpar : codeParity (rustLines content) = false)
    (hcr : crChar ∉ content.data) :
    ∀ c ∈ sectionPassChunks hash ts content md,
      LinesRep (rustLines content) c.content false := by
  have hsecrep := split_into_sections_rep content hpar
  unfold sectionPassChunks
  have main : ∀ (secs : List MdSection),
      (∀ sec ∈ secs, LinesRep (rustLines content) sec.content false) →
      ∀ (acc : List Chunk), (∀ c ∈ acc, LinesRep (rustLines content) c.content false) →
      ∀ c ∈ secs.foldl (fun acc sec =>
        if strByteLen sec.content ≤ ts then
          if MIN_CHUNK ≤ strByteLen sec.content then
            acc ++ [create_chunk hash sec.content
              (sectionMeta md sec.ctx sec.startLine sec.endLine
                (has_code_blocks sec.content))]
          else acc
        else acc ++ split_large_section hash ts sec.ctx sec.content sec.startLine md) acc,
      LinesRep (rustLines content) c.content false := by
    intro secs
    induction secs with
    | nil =>
      intro _ acc h
      exact h
    | cons sec rest ih =>
      intro hsecs acc h
      rw [List.foldl_cons]
      have hsec : LinesRep (rustLines content) sec.content false :=
        hsecs sec (List.mem_cons_self _ _)
      apply ih (fun s hs => hsecs s (List.mem_cons_of_mem _ hs))
      by_cases h1 : strByteLen sec.content ≤ ts
      · by_cases h2 : MIN_CHUNK ≤ strByteLen sec.content
        · rw [if_pos h1, if_pos h2]
          intro c hc
          rcases List.mem_append.mp hc with ha | hb
          · exact h c ha
          · rw [List.mem_singleton.mp hb, create_chunk_content]
            exact hsec
        · rw [if_pos h1, if_neg h2]
          exact h
      · rw [if_neg h1]
        intro c hc
        rcases List.mem_append.mp hc with ha | hb
        · exact h c ha
        · obtain ⟨ds, hceq, hmemds, hpards⟩ := hsec
          have hds : rustLines sec.content = ds := by
            rw [hceq]
            apply rustLines_lineJoin
            intro l hl
            obtain ⟨hnl, hchars⟩ := rustLines_line_chars content l (hmemds l hl)
            exact ⟨hnl, fun hcrmem => hcr (hchars _ hcrmem)⟩
          refine split_large_section_rep hash ts sec.ctx sec.content sec.startLine md
            (rustLines content) ?_ ?_ c hb
          · rw [hds]
            exact hmemds
          · rw [hds]
            exact hpards
  exact main _ hsecrep [] (by intro c hc; cases hc)

/-- **C6 (amended).** For a markdown document in which every fence line
holds exactly one triple-backtick occurrence, every non-fence line holds
none, the fence count of the whole document is even, and no carriage
return occurs, every chunk the markdown chunker emits contains an even
number of triple-backtick occurrences.  (Without these hypotheses the
property fails: a backtick run inside a line is counted but toggles no
fence; see the counterexample.) -/
theorem markdown_code_block_integrity (hash : String → String) (ts : Nat)
    (content : String) (md : DocMetadata)
    (hline : ∀ l ∈ rustLines content, countTicks l = if isFenceLine l then 1 else 0)
    (hpar : codeParity (rustLines content) = false)
    (hcr : crChar ∉ content.data) :
    ∀ c ∈ markdownChunk hash ts content md, Even (countTicks c.content) := by
  have hgoodlines : ∀ l ∈ rustLines content, goodLine l := fun l hl => hline l hl
  intro c hc
  unfold markdownChunk at hc
  by_cases hblank : (trimStr content).data.isEmpty = true
  · rw [if_pos hblank] at hc
    cases hc
  · rw [if_neg hblank] at hc
    dsimp only at hc
    by_cases hcond : ((sectionPassChunks hash ts content md).isEmpty
        && decide (MIN_CHUNK ≤ strByteLen content)) = true
    · rw [if_pos hcond] at hc
      rw [List.mem_singleton.mp hc, create_chunk_content]
      show Even (cnt content.data)
      rw [cnt_content_lines content hcr, sum_goodLine _ hgoodlines]
      exact even_countP_of_codeParity _ hpar
    · rw [if_neg hcond] at hc
      obtain ⟨ds, hceq, hmemds, hpards⟩ :=
        sectionPassChunks_rep hash ts content md hpar hcr c hc
      show Even (cnt c.content.data)
      exact even_cnt_of_rep c.content ds hceq
        (fun l hl => hgoodlines l (hmemds l hl)) hpards

/-- A markdown document with one closed code fence and a long tail. -/
def docFenced : String := "```\nco\n```\n" ++ String.mk (List.replicate 100 'a')

/-- **C6 witness**: a document with a closed code fence satisfies the
per-line and parity hypotheses, and every chunk emitted for it has an even
triple-backtick count. -/
theorem markdown_code_block_integrity_witness :
    (∀ l ∈ rustLines docFenced, countTicks l = if isFenceLine l then 1 else 0)
    ∧ codeParity (rustLines docFenced) = false
    ∧ crChar ∉ docFenced.data
    ∧ ∀ c ∈ markdownChunk (fun _ => "") TARGET_SIZE docFenced mdMeta,
        Even (countTicks c.content) :=
  ⟨by decide, by decide, by decide,
    markdown_code_block_integrity (fun _ => "") TARGET_SIZE docFenced mdMeta
      (by decide) (by decide) (by decide)⟩

end Eywa
